import Mathlib

/-!
Verification of the BBO tick-cache core of the `binance-stream` repository.

The definitions below are a shallow embedding of the Python sources:

* `src/cache/bbo_cache.py`      — `BBOCache` (`add_update`, `_insert_update`,
  `get_updates`, `clear_old_data`);
* `src/cache/cache_manager.py`  — `CacheManager` (`process_bbo_update`,
  `contains_update`);
* `src/message_processor.py`    — `MessageProcessor._process_bbo_update` and
  `_handle_bbo_data` (latency attachment and record formatting);
* `src/web/message_queue.py`    — `MessageQueueProcessor._process_message_queue`
  (batching and throttling);
* `src/cache/rest_api.py`       — `BBOHistoryAPI.get_updates` (the in-place
  `timestamp_formatted` annotation of returned records).

Modelling conventions:

* A Python BBO-update dict is modelled by the structure `Update`; a key that is
  absent is `none`.  (The producers in this repository never store the literal
  `None` under a key whose handling distinguishes "absent" from "present and
  None" — the only keys read with a bare `in` test are `'timestamp'`,
  `'exchange_time'`, `'received_timestamp'`, the price/quantity fields and
  `'backendLatency'`, and every writer of those keys writes a real value — so
  collapsing both cases into `none` is faithful.)
* Millisecond times are `Int` (Python ints are unbounded; `current_time_ms`
  returns a real-valued time, modelled here as an integer-valued clock that is
  passed in explicitly as `now`).
* Price/quantity payloads are modelled as `Int`; only their presence and
  identity matter to the properties considered here.
* The per-symbol maps `self._updates`, `self._timestamps`,
  `self._latency_stats` are `defaultdict`s; they are modelled as total
  functions from symbols with default `[]`.  The `symbol not in …` membership
  tests of the source collapse to emptiness tests, which is observationally
  equivalent for every operation modelled here.
* Locks, logging, persistence-to-disk and the background threads are elided:
  the claims below are about the sequential data semantics.
-/

/-- Python truthiness of an optional string (`if not symbol`). -/
def truthyS : Option String → Bool
  | none => false
  | some s => s ≠ ""

/-- Python truthiness of an optional integer (`if not timestamp`, `if exchange_time:`). -/
def truthyI : Option Int → Bool
  | none => false
  | some n => n ≠ 0

/-- One BBO update dict, as handled by `BBOCache.add_update`.
`none` models an absent key. -/
structure Update where
  symbol : Option String := none
  timestamp : Option Int := none
  exchange_time : Option Int := none
  received_timestamp : Option Int := none
  bidPrice : Option Int := none
  bidQty : Option Int := none
  askPrice : Option Int := none
  askQty : Option Int := none
  bid_price : Option Int := none
  bid_qty : Option Int := none
  ask_price : Option Int := none
  ask_qty : Option Int := none
  backendLatency : Option Int := none
  latency : Option Int := none
  /-- Set by `rest_api.py` after retrieval (`update['timestamp_formatted'] = …`);
  modelled as the raw timestamp that was formatted. -/
  timestamp_formatted : Option Int := none
  deriving Repr, DecidableEq

/-- The timestamp key under which a stored record is ordered. -/
def key (u : Update) : Int := u.timestamp.getD 0

/-- `bisect.bisect_left` / `bisect.bisect_right`, as in CPython:
binary search over `a[lo:hi]` with the probe `p a[mid]` deciding to move right.
`bisect_left a x` uses `p t := t < x`; `bisect_right a x` uses `p t := t ≤ x`.
The extra `fuel` argument makes the recursion structural; each step shrinks
`hi - lo`, so any `fuel ≥ hi - lo` computes the fixpoint. -/
def bisectAux (a : List Int) (p : Int → Bool) : Nat → Nat → Nat → Nat
  | 0, lo, _ => lo
  | fuel + 1, lo, hi =>
    if lo < hi then
      let mid := (lo + hi) / 2
      if p (a.getD mid 0) then bisectAux a p fuel (mid + 1) hi
      else bisectAux a p fuel lo mid
    else lo

/-- `bisect.bisect_left(a, x)`. -/
def bisect_left (a : List Int) (x : Int) : Nat :=
  bisectAux a (fun t => t < x) a.length 0 a.length

/-- `bisect.bisect_right(a, x)`. -/
def bisect_right (a : List Int) (x : Int) : Nat :=
  bisectAux a (fun t => t ≤ x) a.length 0 a.length

/-- Python `list.insert(i, x)` for `0 ≤ i ≤ len`. -/
def pyinsert (l : List α) (i : Nat) (x : α) : List α :=
  l.take i ++ x :: l.drop i

/-- Python slice `l[a:]` for an arbitrary integer `a`
(negative `a` counts from the end, clamped at 0). -/
def pyIntSlice (l : List α) (a : Int) : List α :=
  if 0 ≤ a then l.drop a.toNat else l.drop (l.length - (-a).toNat)

/-- The mutable state of one `BBOCache` instance (`bbo_cache.py`, `__init__`). -/
structure Cache where
  /-- `self._updates : Symbol -> deque of updates`. -/
  updates : String → List Update
  /-- `self._timestamps : Symbol -> list of timestamps`. -/
  timestamps : String → List Int
  /-- `self._latency_stats : Symbol -> list of (timestamp, latency)`. -/
  latency_stats : String → List (Int × Int)
  /-- `self._max_items`. -/
  maxItems : Nat
  /-- `self._insert_count`. -/
  insert_count : Nat

/-- A freshly constructed `BBOCache(max_items_per_symbol)`. -/
def Cache.init (cap : Nat) : Cache :=
  { updates := fun _ => [], timestamps := fun _ => [], latency_stats := fun _ => [],
    maxItems := cap, insert_count := 0 }

/-- `BBOCache._insert_update` (bbo_cache.py lines 143–174): evict the head if at
capacity, then append if the timestamp is in order, else insert at the
`bisect_left` position. -/
def insert_update (c : Cache) (sym : String) (ts : Int) (u : Update) : Cache :=
  let ups0 := c.updates sym
  let tss0 := c.timestamps sym
  -- `if len(self._updates[symbol]) >= self._max_items: popleft(); pop(0)`
  let ups1 := if c.maxItems ≤ ups0.length then ups0.drop 1 else ups0
  let tss1 := if c.maxItems ≤ ups0.length then tss0.drop 1 else tss0
  -- `if not self._timestamps[symbol] or timestamp >= self._timestamps[symbol][-1]`
  let pair :=
    match tss1.getLast? with
    | none => (ups1 ++ [u], tss1 ++ [ts])
    | some lastTs =>
      if lastTs ≤ ts then (ups1 ++ [u], tss1 ++ [ts])
      else
        let idx := bisect_left tss1 ts
        (pyinsert ups1 idx u, pyinsert tss1 idx ts)
  { c with
    updates := fun s => if s = sym then pair.1 else c.updates s,
    timestamps := fun s => if s = sym then pair.2 else c.timestamps s }

/-- Timestamp fallback chain of `BBOCache.add_update` (bbo_cache.py lines 77–89):
keep an explicit `'timestamp'`; else `'exchange_time'`; else
`'received_timestamp'`; else the current wall clock. -/
def resolveTimestamp (u : Update) (now : Int) : Update :=
  if u.timestamp.isSome then u
  else
    match u.exchange_time with
    | some t => { u with timestamp := some t }
    | none =>
      match u.received_timestamp with
      | some t => { u with timestamp := some t }
      | none => { u with timestamp := some now }

/-- Field-name normalization of `add_update` (bbo_cache.py lines 93–104):
copy each snake_case spelling to the camelCase key when the latter is absent.
The four loop iterations of the source touch disjoint keys, so they are
rendered as one simultaneous record update. -/
def normalizeFields (u : Update) : Update :=
  { u with
    bidPrice := if u.bid_price.isSome && u.bidPrice.isNone then u.bid_price else u.bidPrice,
    bidQty := if u.bid_qty.isSome && u.bidQty.isNone then u.bid_qty else u.bidQty,
    askPrice := if u.ask_price.isSome && u.askPrice.isNone then u.ask_price else u.askPrice,
    askQty := if u.ask_qty.isSome && u.askQty.isNone then u.ask_qty else u.askQty }

/-- The timestamp value that the fallback chain of `add_update` settles on. -/
def resolvedTs (u : Update) (now : Int) : Int :=
  match u.timestamp with
  | some t => t
  | none =>
    match u.exchange_time with
    | some t => t
    | none =>
      match u.received_timestamp with
      | some t => t
      | none => now

/-- Latency bookkeeping of `add_update` (bbo_cache.py lines 113–128): append a
`(timestamp, latency)` sample when `'backendLatency'` is present, else when
`'latency'` is present and not `None`; trim the list head when it exceeds
`self._max_items`. -/
def storeLatency (c : Cache) (sym : String) (ts : Int) (u : Update) : Cache :=
  let push := fun (l : Int) =>
    let ll := c.latency_stats sym ++ [(ts, l)]
    let ll := if c.maxItems < ll.length then ll.drop 1 else ll
    { c with latency_stats := fun s => if s = sym then ll else c.latency_stats s }
  match u.backendLatency with
  | some l => push l
  | none =>
    match u.latency with
    | some l => push l
    | none => c

/-- `BBOCache.add_update` (bbo_cache.py lines 58–141).  Persistence and logging
are elided; `now` stands for `current_time_ms()`. -/
def add_update (c : Cache) (now : Int) (u0 : Update) : Cache :=
  match u0.symbol with
  | none => c                      -- `'symbol' not in bbo_update`: warn and return
  | some sym =>
    let u1 := resolveTimestamp u0 now
    let ts := u1.timestamp.getD 0  -- `timestamp = bbo_update['timestamp']`
    let u := normalizeFields u1
    -- `missing_fields` check after normalization
    if u.bidPrice.isNone || u.bidQty.isNone || u.askPrice.isNone || u.askQty.isNone then c
    else
      let c := storeLatency c sym ts u
      let c := insert_update c sym ts u
      { c with insert_count := c.insert_count + 1 }

/-- `BBOCache.get_updates` (bbo_cache.py lines 176–217). -/
def get_updates (c : Cache) (symbol : String) (start_time end_time : Option Int)
    (limit : Option Int) : List Update :=
  -- `if symbol not in self._updates: return []` — an absent symbol is an empty
  -- series in this model, and every branch below returns `[]` for it.
  match start_time, end_time with
  | none, none =>
    -- `return list(self._updates[symbol])[-limit:]` (or the whole list)
    match limit with
    | none => c.updates symbol
    | some lim => pyIntSlice (c.updates symbol) (-lim)
  | _, _ =>
    let tss := c.timestamps symbol
    let start_idx := match start_time with
      | some st => bisect_left tss st
      | none => 0
    let end_idx := match end_time with
      | some et => bisect_right tss et
      | none => tss.length
    -- `result = list(self._updates[symbol])[start_idx:end_idx]`
    let result := ((c.updates symbol).take end_idx).drop start_idx
    -- `if limit is not None and len(result) > limit: result = result[-limit:]`
    match limit with
    | some lim => if lim < (result.length : Int) then pyIntSlice result (-lim) else result
    | none => result

/-- `CacheManager.contains_update` (cache_manager.py lines 145–185).
Note the Python truthiness tests `if not symbol or not timestamp`. -/
def contains_update (c : Cache) (u : Update) : Bool :=
  if !(truthyS u.symbol) || !(truthyI u.timestamp) then false
  else
    let sym := u.symbol.getD ""
    let ts := u.timestamp.getD 0
    let tss := c.timestamps sym
    if tss.isEmpty then false
    else
      let idx := bisect_left tss ts
      decide (idx < tss.length) && (tss.getD idx 0 == ts)

/-- `CacheManager.process_bbo_update` (cache_manager.py lines 122–143): skip a
recognized duplicate, otherwise insert.  The lifecycle bookkeeping
(`self.running` / `start()`) and the `try/except` wrapper do not affect the
cache contents and are elided. -/
def process_bbo_update (c : Cache) (now : Int) (u : Update) : Cache :=
  if contains_update c u then c else add_update c now u

/-- Per-symbol body of `BBOCache.clear_old_data` (bbo_cache.py lines 349–364). -/
def clearSeries (cutoff : Int) (tss : List Int) (ups : List Update)
    (lats : List (Int × Int)) : List Int × List Update × List (Int × Int) :=
  if tss.isEmpty then (tss, ups, lats)
  else
    let idx := bisect_left tss cutoff
    if 0 < idx then
      (tss.drop idx, ups.drop idx, lats.filter (fun p => decide (cutoff ≤ p.1)))
    else (tss, ups, lats)

/-- `BBOCache.clear_old_data` (bbo_cache.py lines 340–366), applied pointwise to
every symbol (`for symbol in list(self._updates.keys())`; symbols the cache has
never touched have empty series and are left unchanged by the body as well). -/
def clear_old_data (c : Cache) (now : Int) (max_age_ms : Int) : Cache :=
  let cutoff := now - max_age_ms
  { c with
    timestamps := fun s => (clearSeries cutoff (c.timestamps s) (c.updates s) (c.latency_stats s)).1,
    updates := fun s => (clearSeries cutoff (c.timestamps s) (c.updates s) (c.latency_stats s)).2.1,
    latency_stats := fun s => (clearSeries cutoff (c.timestamps s) (c.updates s) (c.latency_stats s)).2.2 }

/-- A finite sequence of `add_update` calls against a fresh cache; each call
carries the wall-clock reading observed by `current_time_ms()`. -/
def applyAdds (cap : Nat) (ops : List (Int × Update)) : Cache :=
  ops.foldl (fun c p => add_update c p.1 p.2) (Cache.init cap)

/-- A parsed Binance stream message, with the fields read by
`message_processor.py` (`'s'`, `'b'`, `'B'`, `'a'`, `'A'`, `'E'`). -/
structure RawMsg where
  s : Option String := none
  b : Option Int := none
  B : Option Int := none
  a : Option Int := none
  A : Option Int := none
  E : Option Int := none
  deriving Repr, DecidableEq

/-- `MessageProcessor._process_bbo_update` (message_processor.py lines 167–215):
the `formatted_data` dict it builds from a native BBO message and the wall-clock
reading `received_timestamp`.  Latency (`data['latency']`) is attached whenever
`exchange_time` (`data.get('E')`) is truthy, with no plausibility bound; the
`'timestamp'` key is `exchange_time or received_timestamp`. -/
def process_bbo_format (data : RawMsg) (received_timestamp : Int) (selfSymbol : String) :
    Update :=
  let exchange_time := data.E
  let lat : Option Int :=
    if truthyI exchange_time then some (received_timestamp - exchange_time.getD 0) else none
  { symbol := some (data.s.getD selfSymbol),
    bid_price := some (data.b.getD 0),
    bid_qty := some (data.B.getD 0),
    ask_price := some (data.a.getD 0),
    ask_qty := some (data.A.getD 0),
    exchange_time := exchange_time,
    received_timestamp := some received_timestamp,
    latency := lat,
    bidPrice := some (data.b.getD 0),
    bidQty := some (data.B.getD 0),
    askPrice := some (data.a.getD 0),
    askQty := some (data.A.getD 0),
    timestamp := some (if truthyI exchange_time then exchange_time.getD 0
                       else received_timestamp) }

/-- `MessageProcessor._handle_bbo_data` (message_processor.py lines 115–165): the
`web_data` dict built for the fallback BBO shape.  `latency_ms` is set only when
`'E'` is present and `received_timestamp - E < 10000`; there is no lower bound,
so zero and negative deltas are accepted. -/
def handle_bbo_format (data : RawMsg) (received_timestamp : Int) (selfSymbol : String) :
    Update :=
  let latency_ms : Option Int :=
    match data.E with
    | some e => if received_timestamp - e < 10000 then some (received_timestamp - e) else none
    | none => none
  let exchange_time : Int :=
    match data.E with
    | some e => e
    | none => received_timestamp
  { symbol := some selfSymbol,
    bid_price := some (data.b.getD 0),
    bid_qty := some (data.B.getD 0),
    ask_price := some (data.a.getD 0),
    ask_qty := some (data.A.getD 0),
    latency := latency_ms,
    exchange_time := some exchange_time,
    received_timestamp := some received_timestamp }

/-- The latency recalculation of `MessageQueueProcessor._process_message_queue`
for processor-formatted dict messages (message_queue.py lines 147–167): reuse a
non-`None` pre-calculated `'latency'`; else, when `'exchange_time'` is present,
accept `received_time - exchange_time` iff it is below 10000 ms (again with no
lower bound). -/
def queue_backend_latency (latency exchange_time received_timestamp : Option Int)
    (process_time : Int) : Option Int :=
  match latency with
  | some l => some l
  | none =>
    match exchange_time with
    | some e =>
      let received_time := received_timestamp.getD process_time
      if received_time - e < 10000 then some (received_time - e) else none
    | none => none

/-- The wire-facing `formatted_data` built by the queue processor
(message_queue.py lines 169–209). -/
structure Formatted where
  symbol : String
  bidPrice : Int
  bidQty : Int
  askPrice : Int
  askQty : Int
  timestamp : Int
  serverTimestamp : Int
  backendLatency : Option Int
  deriving Repr, DecidableEq

/-- A dict message drained from the broadcast queue: either the processor shape
(`'bid_price'`/`'ask_price'` keys) or the raw Binance shape. -/
structure DictMsg where
  symbol : Option String := none
  bid_price : Option Int := none
  bid_qty : Option Int := none
  ask_price : Option Int := none
  ask_qty : Option Int := none
  latency : Option Int := none
  exchange_time : Option Int := none
  received_timestamp : Option Int := none
  s : Option String := none
  b : Option Int := none
  B : Option Int := none
  a : Option Int := none
  A : Option Int := none
  E : Option Int := none
  deriving Repr, DecidableEq

/-- A queued message: the `('bbo_update', dict)` tuple shape or a plain dict
(message_queue.py lines 123 and 144). -/
inductive QMsg where
  | tup (event_type : String) (payload : Formatted)
  | dmsg (m : DictMsg)
  deriving Repr, DecidableEq

/-- Formatting of one drained dict message (message_queue.py lines 145–217),
including the final `if formatted_data['timestamp'] is None: … = process_time`
repair. -/
def formatQueueMsg (m : DictMsg) (process_time : Int) : Formatted :=
  if m.bid_price.isSome && m.ask_price.isSome then
    { symbol := m.symbol.getD "UNKNOWN",
      bidPrice := m.bid_price.getD 0,
      bidQty := m.bid_qty.getD 0,
      askPrice := m.ask_price.getD 0,
      askQty := m.ask_qty.getD 0,
      timestamp := m.exchange_time.getD process_time,
      serverTimestamp := process_time,
      backendLatency :=
        queue_backend_latency m.latency m.exchange_time m.received_timestamp process_time }
  else
    { symbol := m.s.getD "UNKNOWN",
      bidPrice := m.b.getD 0,
      bidQty := m.B.getD 0,
      askPrice := m.a.getD 0,
      askQty := m.A.getD 0,
      timestamp := m.E.getD process_time,
      serverTimestamp := process_time,
      backendLatency :=
        match m.E with
        | some e =>
          let received_time := m.received_timestamp.getD process_time
          if received_time - e < 10000 then some (received_time - e) else none
        | none => none }

/-- The dispatcher state touched by one pass of the drain loop
(message_queue.py `__init__` lines 34–39). -/
structure QState where
  last_message_time : Int
  throttled_message : Option Formatted
  latest_data : Option Formatted
  deriving Repr, DecidableEq

/-- The throttle interval (`self.throttle_interval = 100`). -/
def throttle_interval : Int := 100

/-- The per-message body of the batch loop of
`MessageQueueProcessor._process_message_queue` (message_queue.py lines
121–246); `time_since_last_message` is the value computed once before the loop
(line 118) and never refreshed inside it. -/
def processStep (time_since_last_message current_time process_time : Int)
    (acc : List (String × Formatted) × QState) (msg : QMsg) :
    List (String × Formatted) × QState :=
  let es := acc.1
  let s := acc.2
  match msg with
  | .tup event_type d =>
    -- lines 123–143: emit pre-formatted tuples directly, outside throttling
    if event_type = "bbo_update" then
      (es ++ [(event_type, d)], { s with latest_data := some d })
    else (es, s)
  | .dmsg m =>
    let formatted_data := formatQueueMsg m process_time
    let s := { s with latest_data := some formatted_data }
    if throttle_interval ≤ time_since_last_message then
      (es ++ [("bbo_update", formatted_data)],
       { s with last_message_time := current_time, throttled_message := none })
    else
      (es, { s with throttled_message := some formatted_data })

/-- One iteration of `MessageQueueProcessor._process_message_queue`
(message_queue.py lines 89–262) applied to an already-drained batch.
The three clock readings of the body are passed in: `process_time` (line 93),
`current_time` (line 117, fixed for the whole batch — `time_since_last_message`
is computed once, before the per-message loop, and is not refreshed when a
message is emitted), and `flush_time` (line 250, read in the trailing
throttled-flush block).  Returns the emitted `(event, payload)` list and the
new state. -/
def processBatch (st : QState) (batch : List QMsg)
    (process_time current_time flush_time : Int) : List (String × Formatted) × QState :=
  let time_since_last_message := current_time - st.last_message_time
  let res := batch.foldl (processStep time_since_last_message current_time process_time)
    ([], st)
  -- lines 248–262: flush the pending throttled message after the batch
  match res.2.throttled_message with
  | some fd =>
    if throttle_interval ≤ flush_time - res.2.last_message_time then
      (res.1 ++ [("bbo_update", fd)],
       { res.2 with last_message_time := flush_time, throttled_message := none })
    else res
  | none => res

/-- Reference-level model of one Symbol Series for the aliasing claim: the
Python deque `self._updates[symbol]` holds references to mutable dicts.
`heap` maps a reference to the dict it denotes. -/
structure RefCache where
  heap : Nat → Update
  refs : List Nat
  nextRef : Nat

/-- The empty series with an all-default heap. -/
def RefCache.empty : RefCache :=
  { heap := fun _ => {}, refs := [], nextRef := 0 }

/-- Admission of one record into the series (the in-order append branch of
`_insert_update`, bbo_cache.py line 165): the dict is stored by reference. -/
def refcache_append (rc : RefCache) (u : Update) : RefCache :=
  { heap := fun r => if r = rc.nextRef then u else rc.heap r,
    refs := rc.refs ++ [rc.nextRef],
    nextRef := rc.nextRef + 1 }

/-- `BBOCache.get_updates` with no bounds and no limit (bbo_cache.py line 197):
`list(self._updates[symbol])` copies the list spine only; the elements of the
returned list are the stored references themselves. -/
def refcache_get_updates (rc : RefCache) : List Nat :=
  rc.refs

/-- The annotation loop of `BBOHistoryAPI.get_updates` (rest_api.py lines
116–121): `for update in updates: if 'timestamp' in update:
update['timestamp_formatted'] = …` — an in-place write through each returned
reference, hence visible in the cache's own storage. -/
def rest_annotate (rc : RefCache) : RefCache × List Nat :=
  let updates := refcache_get_updates rc
  ({ rc with
      heap := fun r =>
        if r ∈ updates ∧ (rc.heap r).timestamp.isSome then
          { rc.heap r with timestamp_formatted := (rc.heap r).timestamp }
        else rc.heap r },
   updates)

/-- The structural invariant of one symbol's series: the timestamp index is the
record-wise timestamp of the update deque, and it is non-decreasing. -/
def SymOk (c : Cache) (sym : String) : Prop :=
  (c.updates sym).map Update.timestamp = (c.timestamps sym).map some ∧
  (c.timestamps sym).Pairwise (· ≤ · : Int → Int → Prop)

/-- The invariant over all symbols. -/
def CacheOk (c : Cache) : Prop := ∀ sym, SymOk c sym

/-- The required-field check of `add_update` passes (after normalization). -/
def hasRequired (u : Update) : Bool :=
  let v := normalizeFields u
  v.bidPrice.isSome && v.bidQty.isSome && v.askPrice.isSome && v.askQty.isSome

/-- A record that `add_update` will actually store under symbol `sym`, keyed by
its own explicit timestamp. -/
def Admissible (sym : String) (u : Update) : Bool :=
  (u.symbol == some sym) && u.timestamp.isSome && hasRequired u

/-- A sequence of `add_update` calls all sharing one wall-clock reading `0`. -/
def applyAdds0 (cap : Nat) (ops : List Update) : Cache :=
  ops.foldl (fun c u => add_update c 0 u) (Cache.init cap)

/-- A well-formed tick for symbol `"S"` at timestamp `t` (concrete test data). -/
def mkRec (t : Int) : Update :=
  { symbol := some "S", timestamp := some t, bidPrice := some 1, bidQty := some 1,
    askPrice := some 1, askQty := some 1 }

/-- A concrete three-tick cache used to instantiate the theorems. -/
def wCache : Cache :=
  applyAdds0 10 [mkRec 1, mkRec 2, mkRec 3]

/-- A well-formed tick carrying a latency sample (concrete test data). -/
def mkRecLat (t lat : Int) : Update :=
  { mkRec t with backendLatency := some lat }

/-- A well-formed tick with no explicit timestamp, only an exchange time
(concrete test data for the fallback chain). -/
def mkRecET (et : Int) : Update :=
  { symbol := some "S", exchange_time := some et, bidPrice := some 1, bidQty := some 1,
    askPrice := some 1, askQty := some 1 }

/-- A processor-shaped queue dict message with fresh prices (concrete test data). -/
def mkQMsg (bp : Int) : DictMsg :=
  { symbol := some "S", bid_price := some bp, bid_qty := some 1, ask_price := some (bp + 1),
    ask_qty := some 1, latency := some 1, exchange_time := some 0,
    received_timestamp := some 0 }

/-! ### Binary-search machinery -/

/-- `bisectAux` stays inside the probed range. -/
theorem bisectAux_le (a : List Int) (p : Int → Bool) :
    ∀ fuel lo hi, lo ≤ hi →
      lo ≤ bisectAux a p fuel lo hi ∧ bisectAux a p fuel lo hi ≤ hi := by
  intro fuel
  induction fuel with
  | zero => intro lo hi h; simp [bisectAux]; omega
  | succ fuel ih =>
    intro lo hi h
    simp only [bisectAux]
    split
    · next hlt =>
      split
      · have := ih ((lo + hi) / 2 + 1) hi (by omega)
        omega
      · have := ih lo ((lo + hi) / 2) (by omega)
        omega
    · omega

/-- Characterization of the binary search: with a test that is downward closed
along the list, the result splits the index range into a satisfying prefix and
a failing suffix. -/
theorem bisectAux_char (a : List Int) (p : Int → Bool)
    (hmono : ∀ i j, i ≤ j → j < a.length →
              p (a.getD j 0) = true → p (a.getD i 0) = true) :
    ∀ fuel lo hi, lo ≤ hi → hi ≤ a.length → hi - lo ≤ fuel →
      (∀ i, i < lo → p (a.getD i 0) = true) →
      (∀ i, hi ≤ i → i < a.length → p (a.getD i 0) = false) →
      ∀ i, i < a.length → (p (a.getD i 0) = true ↔ i < bisectAux a p fuel lo hi) := by
  intro fuel
  induction fuel with
  | zero =>
    intro lo hi hle hhi hfuel hlo hhi2 i hiLen
    have hEq : lo = hi := by omega
    subst hEq
    simp only [bisectAux]
    constructor
    · intro hp
      by_contra hcon
      have hf := hhi2 i (by omega) hiLen
      rw [hp] at hf
      exact Bool.noConfusion hf
    · intro hlt; exact hlo i hlt
  | succ fuel ih =>
    intro lo hi hle hhi hfuel hlo hhi2 i hiLen
    simp only [bisectAux]
    split
    · next hlt =>
      have hmidhi : (lo + hi) / 2 < hi := by omega
      have hmidlo : lo ≤ (lo + hi) / 2 := by omega
      have hmidlen : (lo + hi) / 2 < a.length := by omega
      split
      · next hp =>
        exact ih ((lo + hi) / 2 + 1) hi (by omega) hhi (by omega)
          (fun j hj => hmono j ((lo + hi) / 2) (by omega) hmidlen hp)
          hhi2 i hiLen
      · next hp =>
        refine ih lo ((lo + hi) / 2) hmidlo (by omega) (by omega) hlo ?_ i hiLen
        intro j hj hjlen
        cases hq : p (a.getD j 0) with
        | false => rfl
        | true =>
          exact absurd (hmono ((lo + hi) / 2) j hj hjlen hq) hp
    · next hlt =>
      have hEq : lo = hi := by omega
      subst hEq
      constructor
      · intro hp
        by_contra hcon
        have hf := hhi2 i (by omega) hiLen
        rw [hp] at hf
        exact Bool.noConfusion hf
      · intro h2; exact hlo i h2

/-- Monotonicity of entries of a `≤`-pairwise list, via `getD`. -/
theorem pairwise_getD_mono {a : List Int}
    (hs : a.Pairwise (· ≤ · : Int → Int → Prop)) {i j : Nat}
    (hij : i ≤ j) (hj : j < a.length) : a.getD i 0 ≤ a.getD j 0 := by
  rcases Nat.lt_or_ge i j with h | h
  · rw [List.getD_eq_getElem a 0 (by omega), List.getD_eq_getElem a 0 hj]
    exact List.pairwise_iff_getElem.mp hs i j (by omega) hj h
  · have : i = j := by omega
    subst this; rfl

/-- For a sorted list, the length of the `takeWhile` prefix is determined by the
index characterization. -/
theorem length_takeWhile_eq_of_char (p : Int → Bool) :
    ∀ (l : List Int) (r : Nat), r ≤ l.length →
      (∀ i, i < l.length → (p (l.getD i 0) = true ↔ i < r)) →
      (l.takeWhile p).length = r := by
  intro l
  induction l with
  | nil =>
    intro r hr _
    simp only [List.length_nil, Nat.le_zero] at hr
    subst hr
    rfl
  | cons x t ih =>
    intro r hr hc
    cases r with
    | zero =>
      have hx : p x = false := by
        cases hpx : p x with
        | false => rfl
        | true =>
          have := (hc 0 (by simp)).1 (by simpa using hpx)
          omega
      simp [List.takeWhile_cons, hx]
    | succ s =>
      have hx : p x = true := (hc 0 (by simp)).2 (by omega)
      have hrec : (t.takeWhile p).length = s := by
        refine ih s (by simpa using hr) ?_
        intro i hiLen
        have := hc (i + 1) (by simp; omega)
        simpa using this
      simp [List.takeWhile_cons, hx, hrec]

/-- `bisect_left` on a sorted list is the length of the strictly-below prefix. -/
theorem bisect_left_eq (a : List Int) (x : Int)
    (hs : a.Pairwise (· ≤ · : Int → Int → Prop)) :
    bisect_left a x = (a.takeWhile (fun t => decide (t < x))).length := by
  have hmono : ∀ i j, i ≤ j → j < a.length →
      (fun t => decide (t < x)) (a.getD j 0) = true →
      (fun t => decide (t < x)) (a.getD i 0) = true := by
    intro i j hij hj hp
    simp only [decide_eq_true_eq] at hp ⊢
    exact lt_of_le_of_lt (pairwise_getD_mono hs hij hj) hp
  have hchar := bisectAux_char a (fun t => decide (t < x)) hmono a.length 0 a.length
    (by omega) le_rfl (by omega) (by omega) (by omega)
  have hle := bisectAux_le a (fun t => decide (t < x)) a.length 0 a.length (by omega)
  exact (length_takeWhile_eq_of_char (fun t => decide (t < x)) a (bisect_left a x)
    hle.2 hchar).symm

/-- `bisect_right` on a sorted list is the length of the weakly-below prefix. -/
theorem bisect_right_eq (a : List Int) (x : Int)
    (hs : a.Pairwise (· ≤ · : Int → Int → Prop)) :
    bisect_right a x = (a.takeWhile (fun t => decide (t ≤ x))).length := by
  have hmono : ∀ i j, i ≤ j → j < a.length →
      (fun t => decide (t ≤ x)) (a.getD j 0) = true →
      (fun t => decide (t ≤ x)) (a.getD i 0) = true := by
    intro i j hij hj hp
    simp only [decide_eq_true_eq] at hp ⊢
    exact le_trans (pairwise_getD_mono hs hij hj) hp
  have hchar := bisectAux_char a (fun t => decide (t ≤ x)) hmono a.length 0 a.length
    (by omega) le_rfl (by omega) (by omega) (by omega)
  have hle := bisectAux_le a (fun t => decide (t ≤ x)) a.length 0 a.length (by omega)
  exact (length_takeWhile_eq_of_char (fun t => decide (t ≤ x)) a (bisect_right a x)
    hle.2 hchar).symm

/-- Index characterization of `bisect_left` on a sorted list. -/
theorem bisect_left_char (a : List Int) (x : Int)
    (hs : a.Pairwise (· ≤ · : Int → Int → Prop)) :
    ∀ i, i < a.length → (a.getD i 0 < x ↔ i < bisect_left a x) := by
  have hmono : ∀ i j, i ≤ j → j < a.length →
      (fun t => decide (t < x)) (a.getD j 0) = true →
      (fun t => decide (t < x)) (a.getD i 0) = true := by
    intro i j hij hj hp
    simp only [decide_eq_true_eq] at hp ⊢
    exact lt_of_le_of_lt (pairwise_getD_mono hs hij hj) hp
  have h := bisectAux_char a (fun t => decide (t < x)) hmono a.length 0 a.length
    (by omega) le_rfl (by omega) (by omega) (by omega)
  intro i hiLen
  simpa using h i hiLen

/-- `bisect_left` never exceeds the list length. -/
theorem bisect_left_le_length (a : List Int) (x : Int) : bisect_left a x ≤ a.length :=
  (bisectAux_le a (fun t => decide (t < x)) a.length 0 a.length (by omega)).2

/-- `bisect_right` never exceeds the list length. -/
theorem bisect_right_le_length (a : List Int) (x : Int) : bisect_right a x ≤ a.length :=
  (bisectAux_le a (fun t => decide (t ≤ x)) a.length 0 a.length (by omega)).2

/-- On a sorted list, `bisect_left` locates an exact occurrence of a member
(this is the dedup probe of `contains_update`). -/
theorem bisect_left_found (a : List Int) (t : Int)
    (hs : a.Pairwise (· ≤ · : Int → Int → Prop)) (hmem : t ∈ a) :
    bisect_left a t < a.length ∧ a.getD (bisect_left a t) 0 = t := by
  have hchar := bisect_left_char a t hs
  obtain ⟨j, hj, hjt⟩ := List.getElem_of_mem hmem
  have hjr : ¬ j < bisect_left a t := by
    intro h
    have := (hchar j hj).2 h
    rw [List.getD_eq_getElem a 0 hj, hjt] at this
    exact lt_irrefl t this
  have hrlen : bisect_left a t < a.length := lt_of_le_of_lt (Nat.not_lt.mp hjr) hj
  have h1 : ¬ a.getD (bisect_left a t) 0 < t := by
    intro hcon
    exact absurd ((hchar _ hrlen).1 hcon) (lt_irrefl _)
  have h2 : a.getD (bisect_left a t) 0 ≤ a.getD j 0 :=
    pairwise_getD_mono hs (Nat.not_lt.mp hjr) hj
  rw [List.getD_eq_getElem a 0 hj, hjt] at h2
  exact ⟨hrlen, le_antisymm h2 (not_lt.mp h1)⟩

/-! ### takeWhile / dropWhile machinery over a timestamp key -/

/-- `takeWhile` commutes with `map`. -/
theorem takeWhile_map_eq {α : Type} (f : α → Int) (p : Int → Bool) (l : List α) :
    (l.map f).takeWhile p = (l.takeWhile (fun u => p (f u))).map f := by
  induction l with
  | nil => rfl
  | cons u t ih =>
    simp only [List.map_cons, List.takeWhile_cons]
    cases hp : p (f u) <;> simp [hp, ih]

/-- On a list sorted by `f`, dropping the strictly-below-`x` prefix is filtering
for `x ≤ f`. -/
theorem dropWhile_lt_eq_filter {α : Type} (f : α → Int) (x : Int) :
    ∀ l : List α, ((l.map f).Pairwise (· ≤ · : Int → Int → Prop)) →
      l.dropWhile (fun u => decide (f u < x)) = l.filter (fun u => decide (x ≤ f u)) := by
  intro l
  induction l with
  | nil => intro _; rfl
  | cons u t ih =>
    intro hs
    rw [List.map_cons, List.pairwise_cons] at hs
    by_cases h : f u < x
    · have hxle : ¬ x ≤ f u := not_le.mpr h
      simp [List.dropWhile_cons, List.filter_cons, h, hxle, ih hs.2]
    · have hle : x ≤ f u := not_lt.mp h
      have hft : t.filter (fun v => decide (x ≤ f v)) = t := by
        rw [List.filter_eq_self]
        intro v hv
        have hfv : f u ≤ f v := hs.1 (f v) (List.mem_map_of_mem f hv)
        simpa using le_trans hle hfv
      simp [List.dropWhile_cons, List.filter_cons, h, hle, hft]

/-- On a list sorted by `f`, the weakly-below-`x` prefix is the filter
for `f ≤ x`. -/
theorem takeWhile_le_eq_filter {α : Type} (f : α → Int) (x : Int) :
    ∀ l : List α, ((l.map f).Pairwise (· ≤ · : Int → Int → Prop)) →
      l.takeWhile (fun u => decide (f u ≤ x)) = l.filter (fun u => decide (f u ≤ x)) := by
  intro l
  induction l with
  | nil => intro _; rfl
  | cons u t ih =>
    intro hs
    rw [List.map_cons, List.pairwise_cons] at hs
    by_cases h : f u ≤ x
    · simp [List.takeWhile_cons, List.filter_cons, h, ih hs.2]
    · have hft : t.filter (fun v => decide (f v ≤ x)) = [] := by
        rw [List.filter_eq_nil_iff]
        intro v hv
        have hfv : f u ≤ f v := hs.1 (f v) (List.mem_map_of_mem f hv)
        simp only [decide_eq_true_eq]
        omega
      simp [List.takeWhile_cons, List.filter_cons, h, hft]

/-- Restricting `takeWhile p` to a `takeWhile q` prefix is the identity when
`p` entails `q`. -/
theorem takeWhile_entails {α : Type} (p q : α → Bool)
    (himp : ∀ u, p u = true → q u = true) :
    ∀ l : List α, (l.takeWhile q).takeWhile p = l.takeWhile p := by
  intro l
  induction l with
  | nil => rfl
  | cons u t ih =>
    cases hq : q u with
    | true =>
      cases hp : p u with
      | true => simp [List.takeWhile_cons, hq, hp, ih]
      | false => simp [List.takeWhile_cons, hq, hp]
    | false =>
      have hp : p u = false := by
        cases hpu : p u with
        | false => rfl
        | true => rw [himp u hpu] at hq; exact Bool.noConfusion hq
      simp [List.takeWhile_cons, hq, hp]

/-- Taking exactly the `takeWhile` prefix length recovers the prefix. -/
theorem take_length_takeWhile {α : Type} :
    ∀ (l : List α) (p : α → Bool), l.take (l.takeWhile p).length = l.takeWhile p := by
  intro l p
  induction l with
  | nil => rfl
  | cons u t ih =>
    cases hp : p u with
    | true => simp [List.takeWhile_cons, hp, ih]
    | false => simp [List.takeWhile_cons, hp]

/-- Dropping the `takeWhile` prefix length is `dropWhile`. -/
theorem drop_length_takeWhile_eq {α : Type} :
    ∀ (l : List α) (p : α → Bool), l.drop (l.takeWhile p).length = l.dropWhile p := by
  intro l p
  induction l with
  | nil => rfl
  | cons u t ih =>
    cases hp : p u with
    | true => simp [List.takeWhile_cons, List.dropWhile_cons, hp, ih]
    | false => simp [List.takeWhile_cons, List.dropWhile_cons, hp]

/-- `map` over a `pyinsert`. -/
theorem pyinsert_map {α β : Type} (g : α → β) (l : List α) (i : Nat) (x : α) :
    (pyinsert l i x).map g = pyinsert (l.map g) i (g x) := by
  simp [pyinsert, List.map_take, List.map_drop]

/-- Length of `pyinsert` at an in-range index. -/
theorem pyinsert_length {α : Type} (l : List α) (i : Nat) (x : α) (h : i ≤ l.length) :
    (pyinsert l i x).length = l.length + 1 := by
  simp [pyinsert]
  omega

/-- The inserted element is a member. -/
theorem mem_pyinsert_self {α : Type} (l : List α) (i : Nat) (x : α) : x ∈ pyinsert l i x := by
  simp [pyinsert]

/-- Inserting at the `bisect_left` position keeps the list sorted. -/
theorem pyinsert_pairwise (a : List Int) (x : Int)
    (hs : a.Pairwise (· ≤ · : Int → Int → Prop)) :
    (pyinsert a (bisect_left a x) x).Pairwise (· ≤ · : Int → Int → Prop) := by
  have hbl := bisect_left_eq a x hs
  have hsId : (a.map (fun t => t)).Pairwise (· ≤ · : Int → Int → Prop) := by
    simpa using hs
  have hdw := dropWhile_lt_eq_filter (fun t : Int => t) x a hsId
  unfold pyinsert
  rw [hbl, take_length_takeWhile, drop_length_takeWhile_eq]
  rw [List.pairwise_append]
  refine ⟨hs.sublist (List.takeWhile_prefix _).sublist, ?_, ?_⟩
  · rw [List.pairwise_cons]
    refine ⟨?_, hs.sublist (List.dropWhile_sublist _)⟩
    intro b hb
    rw [hdw] at hb
    simpa using List.of_mem_filter hb
  · intro b hb c hc
    have hbx : b < x := by simpa using List.mem_takeWhile_imp hb
    rcases List.mem_cons.mp hc with rfl | hc2
    · exact le_of_lt hbx
    · rw [hdw] at hc2
      have : x ≤ c := by simpa using List.of_mem_filter hc2
      omega

/-- Transfer the alignment invariant to the timestamp key. -/
theorem map_key_of_aligned {ups : List Update} {tss : List Int}
    (h : ups.map Update.timestamp = tss.map some) : ups.map key = tss := by
  have h2 := congrArg (List.map (fun o : Option Int => o.getD 0)) h
  rw [List.map_map, List.map_map] at h2
  have h3 : List.map ((fun o : Option Int => o.getD 0) ∘ some) tss = tss := by
    have hfe : ((fun o : Option Int => o.getD 0) ∘ some) = (id : Int → Int) :=
      funext fun t => rfl
    rw [hfe, List.map_id]
  rw [h3] at h2
  exact h2

/-! ### Structure lemmas for the cache operations -/

/-- `resolveTimestamp` just installs `resolvedTs` into the timestamp slot. -/
theorem resolveTimestamp_eq (u : Update) (now : Int) :
    resolveTimestamp u now = { u with timestamp := some (resolvedTs u now) } := by
  unfold resolveTimestamp resolvedTs
  cases h : u.timestamp with
  | some t =>
    simp only [Option.isSome_some, if_pos]
    rw [← h]
  | none =>
    cases u.exchange_time with
    | some t => rfl
    | none =>
      cases u.received_timestamp with
      | some t => rfl
      | none => rfl

/-- Normalization commutes with overwriting the timestamp slot. -/
theorem normalizeFields_timestamp_update (u : Update) (x : Option Int) :
    normalizeFields { u with timestamp := x } = { normalizeFields u with timestamp := x } := rfl

/-- `storeLatency` touches only the latency map. -/
theorem storeLatency_updates (c : Cache) (sym : String) (ts : Int) (u : Update) :
    (storeLatency c sym ts u).updates = c.updates := by
  unfold storeLatency
  cases u.backendLatency <;> [skip; rfl] <;> cases u.latency <;> rfl

/-- `storeLatency` touches only the latency map. -/
theorem storeLatency_timestamps (c : Cache) (sym : String) (ts : Int) (u : Update) :
    (storeLatency c sym ts u).timestamps = c.timestamps := by
  unfold storeLatency
  cases u.backendLatency <;> [skip; rfl] <;> cases u.latency <;> rfl

/-- `storeLatency` keeps the capacity. -/
theorem storeLatency_maxItems (c : Cache) (sym : String) (ts : Int) (u : Update) :
    (storeLatency c sym ts u).maxItems = c.maxItems := by
  unfold storeLatency
  cases u.backendLatency <;> [skip; rfl] <;> cases u.latency <;> rfl

/-- `add_update` on a record with no symbol is the identity. -/
theorem add_update_no_symbol (c : Cache) (now : Int) (u : Update)
    (hsym : u.symbol = none) : add_update c now u = c := by
  simp [add_update, hsym]

/-- `add_update` on a record failing the required-field check is the identity. -/
theorem add_update_invalid (c : Cache) (now : Int) (u : Update) (sym : String)
    (hsym : u.symbol = some sym) (hreq : hasRequired u = false) :
    add_update c now u = c := by
  have e1 : (normalizeFields (resolveTimestamp u now)).bidPrice = (normalizeFields u).bidPrice := by
    rw [resolveTimestamp_eq]; rfl
  have e2 : (normalizeFields (resolveTimestamp u now)).bidQty = (normalizeFields u).bidQty := by
    rw [resolveTimestamp_eq]; rfl
  have e3 : (normalizeFields (resolveTimestamp u now)).askPrice = (normalizeFields u).askPrice := by
    rw [resolveTimestamp_eq]; rfl
  have e4 : (normalizeFields (resolveTimestamp u now)).askQty = (normalizeFields u).askQty := by
    rw [resolveTimestamp_eq]; rfl
  have hcond : ((normalizeFields (resolveTimestamp u now)).bidPrice.isNone
      || (normalizeFields (resolveTimestamp u now)).bidQty.isNone
      || (normalizeFields (resolveTimestamp u now)).askPrice.isNone
      || (normalizeFields (resolveTimestamp u now)).askQty.isNone) = true := by
    rw [e1, e2, e3, e4]
    unfold hasRequired at hreq
    cases h1 : (normalizeFields u).bidPrice <;> cases h2 : (normalizeFields u).bidQty <;>
      cases h3 : (normalizeFields u).askPrice <;> cases h4 : (normalizeFields u).askQty <;>
      simp_all
  simp only [add_update, hsym]
  rw [if_pos hcond]

/-- `add_update` on a storable record: the exact cache produced. -/
theorem add_update_valid (c : Cache) (now : Int) (u : Update) (sym : String)
    (hsym : u.symbol = some sym) (hreq : hasRequired u = true) :
    add_update c now u =
      (let ts := resolvedTs u now
       let un : Update := { normalizeFields u with timestamp := some ts }
       let c1 := insert_update (storeLatency c sym ts un) sym ts un
       { c1 with insert_count := c1.insert_count + 1 }) := by
  have e1 : (normalizeFields (resolveTimestamp u now)).bidPrice = (normalizeFields u).bidPrice := by
    rw [resolveTimestamp_eq]; rfl
  have e2 : (normalizeFields (resolveTimestamp u now)).bidQty = (normalizeFields u).bidQty := by
    rw [resolveTimestamp_eq]; rfl
  have e3 : (normalizeFields (resolveTimestamp u now)).askPrice = (normalizeFields u).askPrice := by
    rw [resolveTimestamp_eq]; rfl
  have e4 : (normalizeFields (resolveTimestamp u now)).askQty = (normalizeFields u).askQty := by
    rw [resolveTimestamp_eq]; rfl
  have hcond : ((normalizeFields (resolveTimestamp u now)).bidPrice.isNone
      || (normalizeFields (resolveTimestamp u now)).bidQty.isNone
      || (normalizeFields (resolveTimestamp u now)).askPrice.isNone
      || (normalizeFields (resolveTimestamp u now)).askQty.isNone) = false := by
    rw [e1, e2, e3, e4]
    unfold hasRequired at hreq
    cases h1 : (normalizeFields u).bidPrice <;> cases h2 : (normalizeFields u).bidQty <;>
      cases h3 : (normalizeFields u).askPrice <;> cases h4 : (normalizeFields u).askQty <;>
      simp_all
  simp only [add_update, hsym]
  split
  · next h => rw [hcond] at h; exact Bool.noConfusion h
  · rw [resolveTimestamp_eq, normalizeFields_timestamp_update]; rfl

/-- Every member of a sorted list is at most its last element. -/
theorem pairwise_le_getLast {a : List Int}
    (hs : a.Pairwise (· ≤ · : Int → Int → Prop)) {m : Int}
    (hm : a.getLast? = some m) : ∀ b ∈ a, b ≤ m := by
  intro b hb
  rw [List.getLast?_eq_getElem?] at hm
  have hlen : a ≠ [] := by rintro rfl; simp at hm
  have hlen2 : 0 < a.length := List.length_pos.mpr hlen
  have hidx : a.length - 1 < a.length := by omega
  have hmd : a.getD (a.length - 1) 0 = m := by
    rw [List.getD_eq_getElem a 0 hidx]
    rw [List.getElem?_eq_getElem hidx] at hm
    exact Option.some.inj hm
  obtain ⟨i, hi, rfl⟩ := List.getElem_of_mem hb
  rw [← List.getD_eq_getElem a 0 hi, ← hmd]
  exact pairwise_getD_mono hs (by omega) hidx

/-- `getLast?` is `none` exactly on the empty list. -/
theorem getLast?_none_iff_nil {α : Type} (l : List α) : l.getLast? = none ↔ l = [] := by
  cases l with
  | nil => simp
  | cons a t => simp [List.getLast?_eq_getElem?]

/-- Inserting one record at the position chosen by `_insert_update` preserves
alignment and ordering. -/
theorem seriesInsert_ok (ups1 : List Update) (tss1 : List Int) (u : Update) (ts : Int)
    (hts : u.timestamp = some ts)
    (hal : ups1.map Update.timestamp = tss1.map some)
    (hsorted : tss1.Pairwise (· ≤ · : Int → Int → Prop)) :
    ((match tss1.getLast? with
      | none => (ups1 ++ [u], tss1 ++ [ts])
      | some lastTs =>
        if lastTs ≤ ts then (ups1 ++ [u], tss1 ++ [ts])
        else (pyinsert ups1 (bisect_left tss1 ts) u,
              pyinsert tss1 (bisect_left tss1 ts) ts)) : List Update × List Int).1.map
        Update.timestamp =
      ((match tss1.getLast? with
        | none => (ups1 ++ [u], tss1 ++ [ts])
        | some lastTs =>
          if lastTs ≤ ts then (ups1 ++ [u], tss1 ++ [ts])
          else (pyinsert ups1 (bisect_left tss1 ts) u,
                pyinsert tss1 (bisect_left tss1 ts) ts)) : List Update × List Int).2.map some ∧
    ((match tss1.getLast? with
      | none => (ups1 ++ [u], tss1 ++ [ts])
      | some lastTs =>
        if lastTs ≤ ts then (ups1 ++ [u], tss1 ++ [ts])
        else (pyinsert ups1 (bisect_left tss1 ts) u,
              pyinsert tss1 (bisect_left tss1 ts) ts)) : List Update × List Int).2.Pairwise
      (· ≤ · : Int → Int → Prop) := by
  rcases hlast : tss1.getLast? with _ | lastTs
  · have htnil : tss1 = [] := (getLast?_none_iff_nil tss1).mp hlast
    subst htnil
    have hunil : ups1 = [] := by
      have := hal
      simp only [List.map_nil] at this
      exact List.map_eq_nil_iff.mp this
    subst hunil
    exact ⟨by simp [hts], by simp⟩
  · dsimp only
    by_cases hle : lastTs ≤ ts
    · rw [if_pos hle]
      refine ⟨by simp [hal, hts], ?_⟩
      rw [List.pairwise_append]
      refine ⟨hsorted, List.pairwise_singleton _ _, ?_⟩
      intro b hb c' hc'
      rcases List.mem_singleton.mp hc' with rfl
      exact le_trans (pairwise_le_getLast hsorted hlast b hb) hle
    · rw [if_neg hle]
      constructor
      · rw [pyinsert_map, pyinsert_map, hal, hts]
      · exact pyinsert_pairwise tss1 ts hsorted

/-- `_insert_update` preserves the per-symbol invariant (for every symbol). -/
theorem insert_update_symOk (c : Cache) (sym : String) (ts : Int) (u : Update)
    (hts : u.timestamp = some ts) (s : String) (hok : SymOk c s) :
    SymOk (insert_update c sym ts u) s := by
  by_cases hss : s = sym
  · subst hss
    obtain ⟨hal, hsorted⟩ := hok
    have hal1 : (if c.maxItems ≤ (c.updates s).length then (c.updates s).drop 1
        else c.updates s).map Update.timestamp =
        (if c.maxItems ≤ (c.updates s).length then (c.timestamps s).drop 1
        else c.timestamps s).map some := by
      split
      · rw [List.map_drop, List.map_drop, hal]
      · exact hal
    have hsorted1 : (if c.maxItems ≤ (c.updates s).length then (c.timestamps s).drop 1
        else c.timestamps s).Pairwise (· ≤ · : Int → Int → Prop) := by
      split
      · exact hsorted.sublist (List.drop_sublist _ _)
      · exact hsorted
    have h := seriesInsert_ok _ _ u ts hts hal1 hsorted1
    constructor
    · show _ = _
      simp only [insert_update, if_pos rfl]
      exact h.1
    · show List.Pairwise _ _
      simp only [insert_update, if_pos rfl]
      exact h.2
  · obtain ⟨hal, hsorted⟩ := hok
    constructor
    · show _ = _
      simp only [insert_update, if_neg hss]
      exact hal
    · show List.Pairwise _ _
      simp only [insert_update, if_neg hss]
      exact hsorted

/-- `storeLatency` preserves the per-symbol invariant. -/
theorem storeLatency_symOk (c : Cache) (sym : String) (ts : Int) (u : Update)
    (s : String) (hok : SymOk c s) : SymOk (storeLatency c sym ts u) s := by
  unfold SymOk at *
  rw [storeLatency_updates, storeLatency_timestamps]
  exact hok

/-- `add_update` preserves the per-symbol invariant. -/
theorem add_update_symOk (c : Cache) (now : Int) (u : Update)
    (s : String) (hok : SymOk c s) : SymOk (add_update c now u) s := by
  cases hsym : u.symbol with
  | none => rw [add_update_no_symbol c now u hsym]; exact hok
  | some sym =>
    cases hreq : hasRequired u with
    | false => rw [add_update_invalid c now u sym hsym hreq]; exact hok
    | true =>
      rw [add_update_valid c now u sym hsym hreq]
      exact insert_update_symOk _ sym (resolvedTs u now) _ rfl s
        (storeLatency_symOk _ sym _ _ s hok)

/-- The invariant holds on a fresh cache. -/
theorem cacheOk_init (cap : Nat) : CacheOk (Cache.init cap) :=
  fun _ => ⟨rfl, List.Pairwise.nil⟩

/-- The invariant is preserved by any sequence of `add_update` calls. -/
theorem foldl_add_cacheOk (ops : List (Int × Update)) :
    ∀ c, CacheOk c → CacheOk (ops.foldl (fun c p => add_update c p.1 p.2) c) := by
  induction ops with
  | nil => intro c h; exact h
  | cons p t ih =>
    intro c h
    exact ih _ (fun s => add_update_symOk c p.1 p.2 s (h s))

/-- The cache built by `applyAdds` satisfies the invariant. -/
theorem applyAdds_cacheOk (cap : Nat) (ops : List (Int × Update)) :
    CacheOk (applyAdds cap ops) :=
  foldl_add_cacheOk ops _ (cacheOk_init cap)

/-- Every `get_updates` result is a sublist of the stored series. -/
theorem get_updates_sublist (c : Cache) (sym : String)
    (start_time end_time limit : Option Int) :
    (get_updates c sym start_time end_time limit).Sublist (c.updates sym) := by
  have hslice : ∀ (l : List Update) (a : Int), (pyIntSlice l a).Sublist l := by
    intro l a
    unfold pyIntSlice
    split
    · exact List.drop_sublist _ _
    · exact List.drop_sublist _ _
  unfold get_updates
  rcases start_time with _ | st <;> rcases end_time with _ | et
  · rcases limit with _ | lim
    · exact List.Sublist.refl _
    · exact hslice _ _
  all_goals {
    rcases limit with _ | lim
    · dsimp only
      exact ((List.drop_sublist _ _).trans (List.take_sublist _ _))
    · dsimp only
      split
      · exact (hslice _ _).trans ((List.drop_sublist _ _).trans (List.take_sublist _ _))
      · exact ((List.drop_sublist _ _).trans (List.take_sublist _ _))
  }

/-- C1: after any finite sequence of `add_update` calls (any capacity, any
wall-clock readings, timestamps arriving in any order), `get_updates` returns
records in non-decreasing timestamp order, for every symbol and every choice of
bounds and limit. -/
theorem c1_ordering_invariant (cap : Nat) (ops : List (Int × Update)) (sym : String)
    (st et lim : Option Int) :
    ((get_updates (applyAdds cap ops) sym st et lim).map key).Pairwise
      (· ≤ · : Int → Int → Prop) := by
  obtain ⟨hal, hsorted⟩ := applyAdds_cacheOk cap ops sym
  have hkey : ((applyAdds cap ops).updates sym).map key = (applyAdds cap ops).timestamps sym :=
    map_key_of_aligned hal
  have hsub := (get_updates_sublist (applyAdds cap ops) sym st et lim).map key
  rw [hkey] at hsub
  exact hsorted.sublist hsub

/-- The bounded branch of `get_updates` computes exactly the in-range filter. -/
theorem get_updates_bounded_eq (c : Cache) (sym : String) (s e : Int)
    (hok : SymOk c sym) (hse : s ≤ e) :
    ((c.updates sym).take (bisect_right (c.timestamps sym) e)).drop
        (bisect_left (c.timestamps sym) s) =
      (c.updates sym).filter (fun u => decide (s ≤ key u) && decide (key u ≤ e)) := by
  obtain ⟨hal, hsorted⟩ := hok
  have hmap : (c.updates sym).map key = c.timestamps sym := map_key_of_aligned hal
  have hsortedk : ((c.updates sym).map key).Pairwise (· ≤ · : Int → Int → Prop) := by
    rw [hmap]; exact hsorted
  have hb : bisect_right (c.timestamps sym) e =
      ((c.updates sym).takeWhile (fun u => decide (key u ≤ e))).length := by
    rw [← hmap, bisect_right_eq _ e hsortedk, takeWhile_map_eq key _ _, List.length_map]
  have ha : bisect_left (c.timestamps sym) s =
      ((c.updates sym).takeWhile (fun u => decide (key u < s))).length := by
    rw [← hmap, bisect_left_eq _ s hsortedk, takeWhile_map_eq key _ _, List.length_map]
  rw [hb, ha, take_length_takeWhile]
  have hent : ∀ u : Update, (fun u => decide (key u < s)) u = true →
      (fun u => decide (key u ≤ e)) u = true := by
    intro u h
    simp only [decide_eq_true_eq] at h ⊢
    omega
  rw [← takeWhile_entails _ _ hent (c.updates sym), drop_length_takeWhile_eq]
  have hsorted2 : (((c.updates sym).takeWhile (fun u => decide (key u ≤ e))).map key).Pairwise
      (· ≤ · : Int → Int → Prop) :=
    hsortedk.sublist ((List.takeWhile_prefix _).sublist.map key)
  rw [dropWhile_lt_eq_filter key s _ hsorted2,
    takeWhile_le_eq_filter key e (c.updates sym) hsortedk, List.filter_filter]

/-- C4: on a stored (sorted, aligned) series, with both bounds given,
`get_updates` returns exactly the records with `s ≤ timestamp ≤ e`; a positive
`limit` keeps the most recent `limit` of those (trimming from the front) when
more than `limit` match. -/
theorem c4_range_query (c : Cache) (sym : String) (s e : Int)
    (hok : SymOk c sym) (hse : s ≤ e) :
    get_updates c sym (some s) (some e) none =
      (c.updates sym).filter (fun u => decide (s ≤ key u) && decide (key u ≤ e)) ∧
    ∀ lim : Int, 0 < lim →
      get_updates c sym (some s) (some e) (some lim) =
        (if (((c.updates sym).filter
              (fun u => decide (s ≤ key u) && decide (key u ≤ e))).length : Int) ≤ lim then
          (c.updates sym).filter (fun u => decide (s ≤ key u) && decide (key u ≤ e))
        else
          ((c.updates sym).filter (fun u => decide (s ≤ key u) && decide (key u ≤ e))).drop
            (((c.updates sym).filter
                (fun u => decide (s ≤ key u) && decide (key u ≤ e))).length - lim.toNat)) := by
  have hmain := get_updates_bounded_eq c sym s e hok hse
  constructor
  · unfold get_updates
    dsimp only
    exact hmain
  · intro lim hlim
    unfold get_updates
    dsimp only
    rw [hmain]
    rcases le_or_lt
        ((((c.updates sym).filter
          (fun u => decide (s ≤ key u) && decide (key u ≤ e))).length : Int)) lim with hc | hc
    · rw [if_neg (by omega), if_pos hc]
    · rw [if_pos hc, if_neg (by omega)]
      unfold pyIntSlice
      rw [if_neg (by omega)]
      congr 1
      omega

/-- `getLast?` returns a member. -/
theorem mem_of_getLast?' {α : Type} {l : List α} {m : α} (h : l.getLast? = some m) :
    m ∈ l := by
  rw [List.getLast?_eq_getElem?] at h
  obtain ⟨hlt, hm⟩ := List.getElem?_eq_some_iff.mp h
  exact hm ▸ List.getElem_mem _

/-- The inserted timestamp is present in the series after `_insert_update`. -/
theorem mem_insert_update_ts (c : Cache) (sym : String) (ts : Int) (u : Update) :
    ts ∈ (insert_update c sym ts u).timestamps sym := by
  show ts ∈ (if sym = sym then _ else _)
  rw [if_pos rfl]
  rcases hlast : (if c.maxItems ≤ (c.updates sym).length then (c.timestamps sym).drop 1
      else c.timestamps sym).getLast? with _ | lastTs
  · exact List.mem_append_right _ (by simp)
  · dsimp only
    split
    · exact List.mem_append_right _ (by simp)
    · exact mem_pyinsert_self _ _ _

/-- After a valid `add_update`, the record's own timestamp is in the series. -/
theorem add_update_mem_ts (c : Cache) (now : Int) (u : Update) (sym : String) (t : Int)
    (hsym : u.symbol = some sym) (hts : u.timestamp = some t)
    (hreq : hasRequired u = true) :
    t ∈ (add_update c now u).timestamps sym := by
  have hrt : resolvedTs u now = t := by unfold resolvedTs; rw [hts]
  rw [add_update_valid c now u sym hsym hreq]
  dsimp only
  rw [hrt]
  exact mem_insert_update_ts _ sym t _

/-- The dedup probe of `contains_update` recognizes a stored timestamp
(on a sorted series, with truthy symbol and timestamp). -/
theorem contains_update_of_mem (c : Cache) (u : Update) (sym : String) (t : Int)
    (hsym : u.symbol = some sym) (hsymne : sym ≠ "")
    (hts : u.timestamp = some t) (htne : t ≠ 0)
    (hsorted : (c.timestamps sym).Pairwise (· ≤ · : Int → Int → Prop))
    (hmem : t ∈ c.timestamps sym) :
    contains_update c u = true := by
  have h1 : truthyS (some sym) = true := by simpa [truthyS] using hsymne
  have h2 : truthyI (some t) = true := by simpa [truthyI] using htne
  have hne : c.timestamps sym ≠ [] := List.ne_nil_of_mem hmem
  obtain ⟨hlt, heq⟩ := bisect_left_found (c.timestamps sym) t hsorted hmem
  unfold contains_update
  rw [hsym, hts]
  dsimp only
  rw [if_neg (by rw [h1, h2]; simp)]
  rw [if_neg (by simpa [List.isEmpty_iff] using hne)]
  simp only [Bool.and_eq_true, decide_eq_true_eq, beq_iff_eq]
  exact ⟨hlt, heq⟩

/-- C2 (amended): for a record with a truthy symbol and a truthy (nonzero)
timestamp, admitting it twice through `process_bbo_update` is idempotent —
the second call is a no-op on the whole cache state. -/
theorem c2_dedup_idempotent (c : Cache) (now now2 : Int) (u : Update)
    (hsym : truthyS u.symbol = true) (hts : truthyI u.timestamp = true)
    (hok : SymOk c (u.symbol.getD "")) :
    process_bbo_update (process_bbo_update c now u) now2 u = process_bbo_update c now u := by
  rcases hu : u.symbol with _ | sym
  · rw [hu] at hsym; exact Bool.noConfusion hsym
  rcases hut : u.timestamp with _ | t
  · rw [hut] at hts; exact Bool.noConfusion hts
  have hsymne : sym ≠ "" := by
    rw [hu] at hsym
    simpa [truthyS] using hsym
  have htne : t ≠ 0 := by
    rw [hut] at hts
    simpa [truthyI] using hts
  by_cases hc : contains_update c u = true
  · have h1 : process_bbo_update c now u = c := by
      unfold process_bbo_update; rw [if_pos hc]
    rw [h1]
    unfold process_bbo_update
    rw [if_pos hc]
  · have h1 : process_bbo_update c now u = add_update c now u := by
      unfold process_bbo_update; rw [if_neg hc]
    cases hreq : hasRequired u with
    | false =>
      rw [h1, add_update_invalid c now u sym hu hreq]
      unfold process_bbo_update
      rw [if_neg hc, add_update_invalid c now2 u sym hu hreq]
    | true =>
      have hok2 : SymOk (add_update c now u) sym := by
        apply add_update_symOk
        rw [hu] at hok
        exact hok
      have hmem := add_update_mem_ts c now u sym t hu hut hreq
      have hcontains := contains_update_of_mem (add_update c now u) u sym t hu hsymne hut htne
        hok2.2 hmem
      rw [h1]
      unfold process_bbo_update
      rw [if_pos hcontains]

/-- C2 counterexample: a record with `eventTime = 0` (a falsy timestamp in the
Python truthiness test of `contains_update`) is admitted twice: the second
`process_bbo_update` is not a no-op and two records are stored for the key
`("S", 0)`. -/
theorem c2_counterexample :
    ((process_bbo_update (process_bbo_update (Cache.init 10) 0 (mkRec 0)) 0
        (mkRec 0)).updates "S").length = 2 ∧
    ((process_bbo_update (Cache.init 10) 0 (mkRec 0)).updates "S").length = 1 := by
  decide

/-- C2 witness: the amended theorem applied at a concrete record with
timestamp `7` on a fresh cache. -/
theorem c2_dedup_idempotent_witness :
    process_bbo_update (process_bbo_update (Cache.init 10) 0 (mkRec 7)) 5 (mkRec 7) =
      process_bbo_update (Cache.init 10) 0 (mkRec 7) :=
  c2_dedup_idempotent (Cache.init 10) 0 5 (mkRec 7) (by decide) (by decide)
    (cacheOk_init 10 ((mkRec 7).symbol.getD ""))

/-- `_insert_update` keeps the capacity. -/
theorem insert_update_maxItems (c : Cache) (sym : String) (ts : Int) (u : Update) :
    (insert_update c sym ts u).maxItems = c.maxItems := rfl

/-- `add_update` keeps the capacity. -/
theorem add_update_maxItems (c : Cache) (now : Int) (u : Update) :
    (add_update c now u).maxItems = c.maxItems := by
  cases hsym : u.symbol with
  | none => rw [add_update_no_symbol c now u hsym]
  | some sym =>
    cases hreq : hasRequired u with
    | false => rw [add_update_invalid c now u sym hsym hreq]
    | true =>
      rw [add_update_valid c now u sym hsym hreq]
      exact (insert_update_maxItems (storeLatency c sym (resolvedTs u now)
          { normalizeFields u with timestamp := some (resolvedTs u now) }) sym (resolvedTs u now)
          { normalizeFields u with timestamp := some (resolvedTs u now) }).trans
        (storeLatency_maxItems c sym (resolvedTs u now)
          { normalizeFields u with timestamp := some (resolvedTs u now) })

/-- Length after one `_insert_update`: exactly one record is added, after one
eviction when at capacity. -/
theorem insert_update_length (c : Cache) (sym : String) (ts : Int) (u : Update)
    (hlen : (c.updates sym).length = (c.timestamps sym).length)
    (hcap : 1 ≤ c.maxItems) (hbound : (c.updates sym).length ≤ c.maxItems) :
    ((insert_update c sym ts u).updates sym).length
      = min ((c.updates sym).length + 1) c.maxItems := by
  simp only [insert_update, if_true]
  by_cases hev : c.maxItems ≤ (c.updates sym).length
  · simp only [if_pos hev]
    rcases hlast : ((c.timestamps sym).drop 1).getLast? with _ | lastTs
    · simp only [List.length_append, List.length_drop, List.length_singleton]
      omega
    · dsimp only
      split
      · simp only [List.length_append, List.length_drop, List.length_singleton]
        omega
      · rw [pyinsert_length _ _ _ (by
          calc bisect_left ((c.timestamps sym).drop 1) ts
              ≤ ((c.timestamps sym).drop 1).length := bisect_left_le_length _ _
            _ = ((c.updates sym).drop 1).length := by
              simp only [List.length_drop]
              omega)]
        simp only [List.length_drop]
        omega
  · simp only [if_neg hev]
    rcases hlast : (c.timestamps sym).getLast? with _ | lastTs
    · simp only [List.length_append, List.length_singleton]
      omega
    · dsimp only
      split
      · simp only [List.length_append, List.length_singleton]
        omega
      · rw [pyinsert_length _ _ _ (by
          calc bisect_left (c.timestamps sym) ts
              ≤ (c.timestamps sym).length := bisect_left_le_length _ _
            _ = (c.updates sym).length := hlen.symm)]
        omega

/-- Length after one valid `add_update`. -/
theorem add_update_length (c : Cache) (now : Int) (u : Update) (sym : String)
    (hsym : u.symbol = some sym) (hreq : hasRequired u = true)
    (hlen : (c.updates sym).length = (c.timestamps sym).length)
    (hcap : 1 ≤ c.maxItems) (hbound : (c.updates sym).length ≤ c.maxItems) :
    ((add_update c now u).updates sym).length
      = min ((c.updates sym).length + 1) c.maxItems := by
  rw [add_update_valid c now u sym hsym hreq]
  set ts0 := resolvedTs u now with hts0
  set un : Update := { normalizeFields u with timestamp := some ts0 } with hun
  set c2 : Cache := storeLatency c sym ts0 un with hc2
  show ((insert_update c2 sym ts0 un).updates sym).length = _
  have h1 : (c2.updates sym).length = (c2.timestamps sym).length := by
    rw [hc2, storeLatency_updates, storeLatency_timestamps]; exact hlen
  have h2 : 1 ≤ c2.maxItems := by rw [hc2, storeLatency_maxItems]; exact hcap
  have h3 : (c2.updates sym).length ≤ c2.maxItems := by
    rw [hc2, storeLatency_updates, storeLatency_maxItems]; exact hbound
  rw [insert_update_length c2 sym ts0 un h1 h2 h3]
  rw [hc2, storeLatency_updates, storeLatency_maxItems]

/-- `applyAdds0` is `applyAdds` with a constant clock. -/
theorem applyAdds0_eq (cap : Nat) (ops : List Update) :
    applyAdds0 cap ops = applyAdds cap (ops.map (fun u => ((0 : Int), u))) := by
  unfold applyAdds0 applyAdds
  rw [List.foldl_map]

/-- The invariant holds after `applyAdds0`. -/
theorem applyAdds0_cacheOk (cap : Nat) (ops : List Update) :
    CacheOk (applyAdds0 cap ops) := by
  rw [applyAdds0_eq]
  exact applyAdds_cacheOk cap _

/-- The capacity is unchanged by `applyAdds0`. -/
theorem applyAdds0_maxItems (cap : Nat) (ops : List Update) :
    (applyAdds0 cap ops).maxItems = cap := by
  unfold applyAdds0
  induction ops using List.reverseRecOn with
  | nil => rfl
  | append_singleton ops u ih =>
    rw [List.foldl_append]
    show (add_update _ 0 u).maxItems = cap
    rw [add_update_maxItems]
    exact ih

/-- Stored-series length after any number of admissible inserts: `min n C`. -/
theorem applyAdds0_length (cap : Nat) (sym : String) (hcap : 1 ≤ cap)
    (ops : List Update) (hadm : ∀ u ∈ ops, Admissible sym u = true) :
    ((applyAdds0 cap ops).updates sym).length = min ops.length cap := by
  induction ops using List.reverseRecOn with
  | nil => simp [applyAdds0, Cache.init]
  | append_singleton ops u ih =>
    have hadm' : ∀ v ∈ ops, Admissible sym v = true :=
      fun v hv => hadm v (List.mem_append_left _ hv)
    have hadmu : Admissible sym u = true := hadm u (List.mem_append_right _ (by simp))
    simp only [Admissible, Bool.and_eq_true, beq_iff_eq] at hadmu
    obtain ⟨⟨husym, hutsome⟩, hureq⟩ := hadmu
    have hfold : applyAdds0 cap (ops ++ [u]) = add_update (applyAdds0 cap ops) 0 u := by
      unfold applyAdds0
      rw [List.foldl_append]
      rfl
    have halign := (applyAdds0_cacheOk cap ops sym).1
    have hlen_align : ((applyAdds0 cap ops).updates sym).length
        = ((applyAdds0 cap ops).timestamps sym).length := by
      have := congrArg List.length halign
      simpa using this
    have hmax := applyAdds0_maxItems cap ops
    rw [hfold, add_update_length _ 0 u sym husym hureq hlen_align
      (by rw [hmax]; exact hcap) (by rw [hmax, ih hadm']; omega)]
    rw [ih hadm', hmax]
    simp only [List.length_append, List.length_singleton]
    omega

/-- One more `add_update` is one `foldl` step. -/
theorem applyAdds0_append_singleton (cap : Nat) (ops : List Update) (u : Update) :
    applyAdds0 cap (ops ++ [u]) = add_update (applyAdds0 cap ops) 0 u := by
  unfold applyAdds0
  rw [List.foldl_append]
  rfl

/-- An explicit timestamp wins the fallback chain. -/
theorem resolvedTs_of_some {u : Update} {t : Int} (h : u.timestamp = some t) (now : Int) :
    resolvedTs u now = t := by
  unfold resolvedTs
  rw [h]

/-- When the new timestamp is at least every stored one, `_insert_update`
appends (after the capacity eviction). -/
theorem insert_update_timestamps_append (c : Cache) (sym : String) (ts : Int) (u : Update)
    (hle : ∀ b ∈ c.timestamps sym, b ≤ ts) :
    (insert_update c sym ts u).timestamps sym =
      (if c.maxItems ≤ (c.updates sym).length then (c.timestamps sym).drop 1
       else c.timestamps sym) ++ [ts] := by
  simp only [insert_update, if_true]
  rcases hlast : (if c.maxItems ≤ (c.updates sym).length then (c.timestamps sym).drop 1
      else c.timestamps sym).getLast? with _ | lastTs
  · rfl
  · dsimp only
    rw [if_pos]
    have hmem := mem_of_getLast?' hlast
    have hmem2 : lastTs ∈ c.timestamps sym := by
      by_cases hev : c.maxItems ≤ (c.updates sym).length
      · rw [if_pos hev] at hmem
        exact List.mem_of_mem_drop hmem
      · rw [if_neg hev] at hmem
        exact hmem
    exact hle lastTs hmem2

/-- One valid in-order `add_update`: evict the head when at capacity, then
append. -/
theorem add_update_timestamps_append (c : Cache) (u : Update) (sym : String) (t : Int)
    (husym : u.symbol = some sym) (hut : u.timestamp = some t) (hreq : hasRequired u = true)
    (hle : ∀ b ∈ c.timestamps sym, b ≤ t) :
    (add_update c 0 u).timestamps sym =
      (if c.maxItems ≤ (c.updates sym).length then (c.timestamps sym).drop 1
       else c.timestamps sym) ++ [t] := by
  rw [add_update_valid c 0 u sym husym hreq]
  rw [resolvedTs_of_some hut 0]
  set un : Update := { normalizeFields u with timestamp := some t } with hun
  set c2 : Cache := storeLatency c sym t un with hc2
  show (insert_update c2 sym t un).timestamps sym = _
  rw [insert_update_timestamps_append c2 sym t un
    (by rw [hc2, storeLatency_timestamps]; exact hle)]
  rw [hc2, storeLatency_timestamps, storeLatency_updates, storeLatency_maxItems]

/-- For admissible records arriving in non-decreasing timestamp order, the
series after `n` inserts holds exactly the last `min n C` timestamps: the
evicted ones are the oldest. -/
theorem applyAdds0_timestamps_sorted (cap : Nat) (sym : String) (hcap : 1 ≤ cap)
    (ops : List Update) (hadm : ∀ u ∈ ops, Admissible sym u = true)
    (hsorted : (ops.map key).Pairwise (· ≤ · : Int → Int → Prop)) :
    (applyAdds0 cap ops).timestamps sym = (ops.map key).drop (ops.length - cap) := by
  induction ops using List.reverseRecOn with
  | nil => simp [applyAdds0, Cache.init]
  | append_singleton ops u ih =>
    have hadm' : ∀ v ∈ ops, Admissible sym v = true :=
      fun v hv => hadm v (List.mem_append_left _ hv)
    have hadmu : Admissible sym u = true := hadm u (List.mem_append_right _ (by simp))
    simp only [Admissible, Bool.and_eq_true, beq_iff_eq] at hadmu
    obtain ⟨⟨husym, hutsome⟩, hureq⟩ := hadmu
    obtain ⟨t, hut⟩ := Option.isSome_iff_exists.mp hutsome
    have hkeyu : key u = t := by simp [key, hut]
    have hmapapp : (ops ++ [u]).map key = ops.map key ++ [key u] := by simp
    rw [hmapapp] at hsorted
    have hsorted' : (ops.map key).Pairwise (· ≤ · : Int → Int → Prop) :=
      hsorted.sublist (List.sublist_append_left _ _)
    have hle_all : ∀ b ∈ ops.map key, b ≤ key u := by
      have h := List.pairwise_append.mp hsorted
      exact fun b hb => h.2.2 b hb (key u) (by simp)
    have ihh := ih hadm' hsorted'
    have hmax : (applyAdds0 cap ops).maxItems = cap := applyAdds0_maxItems cap ops
    have hulen : ((applyAdds0 cap ops).updates sym).length = min ops.length cap :=
      applyAdds0_length cap sym hcap ops hadm'
    have hle' : ∀ b ∈ (applyAdds0 cap ops).timestamps sym, b ≤ t := by
      intro b hb
      rw [ihh] at hb
      have hb2 := hle_all b (List.mem_of_mem_drop hb)
      omega
    rw [applyAdds0_append_singleton,
      add_update_timestamps_append (applyAdds0 cap ops) u sym t husym hut hureq hle']
    rw [ihh, hmax, hulen, hmapapp, hkeyu]
    simp only [List.length_append, List.length_singleton]
    by_cases hc : cap ≤ ops.length
    · rw [if_pos (by omega), List.drop_drop]
      rw [List.drop_append_of_le_length (by simp; omega)]
      congr 2
      omega
    · rw [if_neg (by omega)]
      have h0 : ops.length - cap = 0 := by omega
      have h1 : ops.length + 1 - cap = 0 := by omega
      rw [h0, h1, List.drop_zero, List.drop_zero]

/-- C3 (amended): with capacity `C ≥ 1`, (a) any `n` admissible inserts for one
symbol leave exactly `min n C` stored records — so `C + k` inserts leave
exactly `C`; (b) when the records arrive in non-decreasing timestamp order,
the survivors are exactly the last `C` timestamps: each eviction removes the
oldest stored record.  (Out of order, the eviction removes the oldest record
stored at that moment, not necessarily the global minimum — see the
counterexample.) -/
theorem c3_capacity_eviction (cap : Nat) (sym : String) (hcap : 1 ≤ cap) :
    (∀ ops : List Update, (∀ u ∈ ops, Admissible sym u = true) →
        ((applyAdds0 cap ops).updates sym).length = min ops.length cap) ∧
    (∀ ops : List Update, (∀ u ∈ ops, Admissible sym u = true) →
        (ops.map key).Pairwise (· ≤ · : Int → Int → Prop) →
        (applyAdds0 cap ops).timestamps sym = (ops.map key).drop (ops.length - cap)) :=
  ⟨fun ops h => applyAdds0_length cap sym hcap ops h,
   fun ops h hs => applyAdds0_timestamps_sorted cap sym hcap ops h hs⟩

/-- C3 counterexample: capacity 1, inserts at timestamps 10 then 5.  The claim
says the evicted record is the oldest-by-eventTime (5), leaving `[10]`; the
code evicts the currently stored record (10) and keeps `[5]`. -/
theorem c3_counterexample :
    (applyAdds0 1 [mkRec 10, mkRec 5]).timestamps "S" = [5] ∧
    (applyAdds0 1 [mkRec 10, mkRec 5]).timestamps "S" ≠ [10] := by
  decide

/-- C3 witness: the amended theorem at capacity 2 with three in-order inserts. -/
theorem c3_capacity_eviction_witness :
    ((applyAdds0 2 [mkRec 1, mkRec 2, mkRec 3]).updates "S").length = min 3 2 ∧
    (applyAdds0 2 [mkRec 1, mkRec 2, mkRec 3]).timestamps "S" =
      ([mkRec 1, mkRec 2, mkRec 3].map key).drop (3 - 2) := by
  have h := c3_capacity_eviction 2 "S" (by decide)
  exact ⟨h.1 [mkRec 1, mkRec 2, mkRec 3] (by decide),
    h.2 [mkRec 1, mkRec 2, mkRec 3] (by decide) (by decide)⟩

/-- C4 witness: the range query on a concrete three-tick cache. -/
theorem c4_range_query_witness :
    get_updates wCache "S" (some 1) (some 2) none =
      (wCache.updates "S").filter
        (fun u => decide ((1 : Int) ≤ key u) && decide (key u ≤ (2 : Int))) :=
  (c4_range_query wCache "S" 1 2 ⟨by decide, by decide⟩ (by decide)).1

/-- `clear_old_data` projects `clearSeries` pointwise. -/
theorem clear_old_data_timestamps (c : Cache) (now m : Int) (sym : String) :
    (clear_old_data c now m).timestamps sym =
      (clearSeries (now - m) (c.timestamps sym) (c.updates sym) (c.latency_stats sym)).1 := rfl

/-- `clear_old_data` projects `clearSeries` pointwise. -/
theorem clear_old_data_updates (c : Cache) (now m : Int) (sym : String) :
    (clear_old_data c now m).updates sym =
      (clearSeries (now - m) (c.timestamps sym) (c.updates sym) (c.latency_stats sym)).2.1 := rfl

/-- `clear_old_data` projects `clearSeries` pointwise. -/
theorem clear_old_data_latency (c : Cache) (now m : Int) (sym : String) :
    (clear_old_data c now m).latency_stats sym =
      (clearSeries (now - m) (c.timestamps sym) (c.updates sym) (c.latency_stats sym)).2.2 := rfl

/-- C5 (amended): `clear_old_data` removes from the update series exactly the
entries older than `now - max_age_ms`, preserving the order of the rest; the
latency tracker is filtered the same way only when the series itself lost at
least one entry (equivalently, some series timestamp is below the cutoff) —
when no series entry is old (or the series is empty), the latency tracker is
left untouched even if it still holds entries older than the cutoff. -/
theorem c5_clear_old_data (c : Cache) (now max_age_ms : Int) (sym : String)
    (hok : SymOk c sym) :
    (clear_old_data c now max_age_ms).timestamps sym =
      (c.timestamps sym).filter (fun t => decide (now - max_age_ms ≤ t)) ∧
    (clear_old_data c now max_age_ms).updates sym =
      (c.updates sym).filter (fun u => decide (now - max_age_ms ≤ key u)) ∧
    ((∃ t ∈ c.timestamps sym, t < now - max_age_ms) →
      (clear_old_data c now max_age_ms).latency_stats sym =
        (c.latency_stats sym).filter (fun p => decide (now - max_age_ms ≤ p.1))) ∧
    ((∀ t ∈ c.timestamps sym, now - max_age_ms ≤ t) →
      (clear_old_data c now max_age_ms).latency_stats sym = c.latency_stats sym) := by
  obtain ⟨hal, hsorted⟩ := hok
  have hmap : (c.updates sym).map key = c.timestamps sym := map_key_of_aligned hal
  have hsortedk : ((c.updates sym).map key).Pairwise (· ≤ · : Int → Int → Prop) := by
    rw [hmap]; exact hsorted
  set cutoff := now - max_age_ms with hcut
  have hdroptss : (c.timestamps sym).drop (bisect_left (c.timestamps sym) cutoff) =
      (c.timestamps sym).filter (fun t => decide (cutoff ≤ t)) := by
    rw [bisect_left_eq _ cutoff hsorted, drop_length_takeWhile_eq]
    have hsId : ((c.timestamps sym).map (fun t => t)).Pairwise (· ≤ · : Int → Int → Prop) := by
      simpa using hsorted
    exact dropWhile_lt_eq_filter (fun t : Int => t) cutoff (c.timestamps sym) hsId
  have hdropups : (c.updates sym).drop (bisect_left (c.timestamps sym) cutoff) =
      (c.updates sym).filter (fun u => decide (cutoff ≤ key u)) := by
    have ha : bisect_left (c.timestamps sym) cutoff =
        ((c.updates sym).takeWhile (fun u => decide (key u < cutoff))).length := by
      rw [← hmap, bisect_left_eq _ cutoff hsortedk, takeWhile_map_eq key _ _, List.length_map]
    rw [ha, drop_length_takeWhile_eq, dropWhile_lt_eq_filter key cutoff _ hsortedk]
  have hchar := bisect_left_char (c.timestamps sym) cutoff hsorted
  rw [clear_old_data_timestamps, clear_old_data_updates, clear_old_data_latency]
  by_cases hemp : (c.timestamps sym).isEmpty = true
  · have htnil : c.timestamps sym = [] := by simpa [List.isEmpty_iff] using hemp
    have hunil : c.updates sym = [] := by
      have h := hal
      rw [htnil] at h
      simp only [List.map_nil] at h
      exact List.map_eq_nil_iff.mp h
    unfold clearSeries
    rw [if_pos hemp]
    refine ⟨by rw [htnil]; rfl, by rw [hunil]; rfl, ?_, fun _ => rfl⟩
    intro hex
    obtain ⟨t, ht, _⟩ := hex
    rw [htnil] at ht
    exact absurd ht (List.not_mem_nil t)
  · unfold clearSeries
    rw [if_neg hemp]
    have hlenpos : 0 < (c.timestamps sym).length := by
      rcases htl : c.timestamps sym with _ | ⟨a, tl⟩
      · rw [htl] at hemp; exact absurd rfl hemp
      · simp
    by_cases hpos : 0 < bisect_left (c.timestamps sym) cutoff
    · rw [if_pos hpos]
      refine ⟨hdroptss, hdropups, fun _ => rfl, ?_⟩
      intro hall
      exfalso
      have h0 := (hchar 0 hlenpos).2 hpos
      have hmem0 : (c.timestamps sym).getD 0 0 ∈ c.timestamps sym := by
        rw [List.getD_eq_getElem _ 0 hlenpos]
        exact List.getElem_mem _
      have := hall _ hmem0
      omega
    · rw [if_neg hpos]
      have hallge : ∀ t ∈ c.timestamps sym, cutoff ≤ t := by
        intro t ht
        obtain ⟨i, hi, rfl⟩ := List.getElem_of_mem ht
        have := (hchar i hi)
        rw [← List.getD_eq_getElem _ 0 hi]
        by_contra hcon
        have := this.1 (by omega)
        omega
      refine ⟨?_, ?_, ?_, fun _ => rfl⟩
      · rw [← hdroptss]
        have : bisect_left (c.timestamps sym) cutoff = 0 := by omega
        rw [this, List.drop_zero]
      · rw [← hdropups]
        have : bisect_left (c.timestamps sym) cutoff = 0 := by omega
        rw [this, List.drop_zero]
      · intro hex
        exfalso
        obtain ⟨t, ht, hlt⟩ := hex
        have := hallge t ht
        omega

/-- C5 counterexample: capacity 1; a latency-bearing tick at `t = 5` is evicted
from the series by a later tick at `t = 100`, but its latency sample survives.
`clear_old_data` with cutoff 50 then evicts nothing from the series
(`bisect_left = 0`), so the latency entry `(5, 7)` — strictly older than the
cutoff — is NOT removed, contradicting the claim. -/
theorem c5_counterexample :
    (clear_old_data (applyAdds0 1 [mkRecLat 5 7, mkRec 100]) 1050 1000).latency_stats "S"
      = [(5, 7)] ∧
    (clear_old_data (applyAdds0 1 [mkRecLat 5 7, mkRec 100]) 1050 1000).timestamps "S"
      = [100] ∧
    ((5 : Int) < 1050 - 1000) := by
  decide

/-- C5 witness: the amended theorem on the concrete three-tick cache. -/
theorem c5_clear_old_data_witness :
    (clear_old_data wCache 1052 1050).timestamps "S" =
      (wCache.timestamps "S").filter (fun t => decide ((1052 : Int) - 1050 ≤ t)) :=
  (c5_clear_old_data wCache 1052 1050 "S" ⟨by decide, by decide⟩).1

/-- C6 counterexample: a negative delta (event time after receipt) and a delta
of 20000 ms ≥ 10000 ms both get a latency attached by
`_process_bbo_update`, and `_handle_bbo_data` also attaches negative deltas
(its only check is `< 10000`); the claim requires the field to be absent in all
three situations. -/
theorem c6_counterexample :
    (process_bbo_format { E := some 150 } 100 "S").latency = some (-50) ∧
    (process_bbo_format { E := some 1 } 20001 "S").latency = some 20000 ∧
    (handle_bbo_format { E := some 150 } 100 "S").latency = some (-50) := by
  decide

/-- C6 (amended): latency is attached by `_process_bbo_update` iff the event
time is present and nonzero (truthy), with value `received - eventTime` and no
bound at all; `_handle_bbo_data` and the queue recalculation attach it iff the
event time is present and the delta is below 10000 ms — zero and negative
deltas included; a pre-calculated `'latency'` value is reused by the queue
unconditionally. -/
theorem c6_latency_attachment :
    (∀ (d : RawMsg) (r : Int) (s : String),
        ((process_bbo_format d r s).latency).isSome = true ↔ truthyI d.E = true) ∧
    (∀ (d : RawMsg) (r : Int) (s : String) (v : Int),
        (process_bbo_format d r s).latency = some v → v = r - d.E.getD 0) ∧
    (∀ (d : RawMsg) (r : Int) (s : String) (e : Int), d.E = some e →
        (((handle_bbo_format d r s).latency).isSome = true ↔ r - e < 10000)) ∧
    (∀ (l : Int) (et rt : Option Int) (p : Int),
        queue_backend_latency (some l) et rt p = some l) ∧
    (∀ (e : Int) (rt : Option Int) (p : Int),
        ((queue_backend_latency none (some e) rt p).isSome = true ↔
          rt.getD p - e < 10000)) := by
  refine ⟨?_, ?_, ?_, fun l et rt p => rfl, ?_⟩
  · intro d r s
    show (if truthyI d.E then some (r - d.E.getD 0) else none).isSome = true ↔ _
    cases h : truthyI d.E <;> simp [h]
  · intro d r s v
    show (if truthyI d.E then some (r - d.E.getD 0) else none) = some v → _
    cases h : truthyI d.E <;> simp <;> omega
  · intro d r s e he
    show ((match d.E with
      | some e0 => if r - e0 < 10000 then some (r - e0) else none
      | none => none : Option Int)).isSome = true ↔ _
    rw [he]
    by_cases hlt : r - e < 10000 <;> simp [hlt]
  · intro e rt p
    show ((if rt.getD p - e < 10000 then some (rt.getD p - e) else none :
        Option Int)).isSome = true ↔ _
    by_cases hlt : rt.getD p - e < 10000 <;> simp [hlt]

/-- C6 witness: the `_handle_bbo_data` branch of the amended theorem at a
concrete message. -/
theorem c6_latency_attachment_witness :
    ((handle_bbo_format { E := some 5 } 10 "S").latency).isSome = true ↔
      (10 : Int) - 5 < 10000 :=
  c6_latency_attachment.2.2.1 { E := some 5 } 10 "S" 5 rfl

/-- C7 counterexample: a record with timestamp 5 is stored; a second record
without an explicit timestamp but with `exchange_time = 5` resolves to the same
key, yet the dedup check (which runs first and only reads the explicit
`'timestamp'` field) does not recognize it, and a duplicate `(S, 5)` record is
admitted. -/
theorem c7_counterexample :
    (process_bbo_update (process_bbo_update (Cache.init 10) 0 (mkRec 5)) 0
        (mkRecET 5)).timestamps "S" = [5, 5] ∧
    contains_update (process_bbo_update (Cache.init 10) 0 (mkRec 5)) (mkRecET 5) = false := by
  decide

/-- C7 (amended): the fallback chain (exchange time, else received timestamp,
else wall clock) is exactly as claimed, but it runs inside `add_update`, AFTER
the duplicate check of `process_bbo_update`: a record lacking an explicit
timestamp is never treated as a duplicate, whatever it resolves to. -/
theorem c7_timestamp_resolution (c : Cache) (now : Int) (u : Update)
    (hts : u.timestamp = none) :
    contains_update c u = false ∧
    process_bbo_update c now u = add_update c now u ∧
    (∀ t, u.exchange_time = some t → resolvedTs u now = t) ∧
    (u.exchange_time = none → ∀ t, u.received_timestamp = some t → resolvedTs u now = t) ∧
    (u.exchange_time = none → u.received_timestamp = none → resolvedTs u now = now) ∧
    (resolveTimestamp u now).timestamp = some (resolvedTs u now) := by
  have hcont : contains_update c u = false := by
    unfold contains_update
    rw [hts]
    simp [truthyI]
  refine ⟨hcont, ?_, ?_, ?_, ?_, ?_⟩
  · unfold process_bbo_update
    rw [if_neg (by rw [hcont]; exact Bool.false_ne_true)]
  · intro t het
    unfold resolvedTs
    rw [hts, het]
  · intro het t hrt
    unfold resolvedTs
    rw [hts, het, hrt]
  · intro het hrt
    unfold resolvedTs
    rw [hts, het, hrt]
  · rw [resolveTimestamp_eq]

/-- C7 witness: the amended theorem at a concrete record with
`exchange_time = 5` and no timestamp, against the concrete three-tick cache. -/
theorem c7_timestamp_resolution_witness :
    contains_update wCache (mkRecET 5) = false ∧ resolvedTs (mkRecET 5) 0 = 5 := by
  have h := c7_timestamp_resolution wCache 0 (mkRecET 5) rfl
  exact ⟨h.1, h.2.2.1 5 rfl⟩

/-- C8 counterexample: after admitting one record (reference 0) and serving one
REST query, the record stored in the cache has gained a `timestamp_formatted`
field — the query returned references into internal storage, not copies, and
the stored record changed after admission. -/
theorem c8_counterexample :
    ((rest_annotate (refcache_append RefCache.empty (mkRec 5))).1.heap 0).timestamp_formatted
      = some 5 ∧
    ((refcache_append RefCache.empty (mkRec 5)).heap 0).timestamp_formatted = none ∧
    (rest_annotate (refcache_append RefCache.empty (mkRec 5))).1.refs
      = (refcache_append RefCache.empty (mkRec 5)).refs := by
  refine ⟨by decide, by decide, rfl⟩

/-- C8 (amended): `get_updates` copies only the list spine — the returned list
holds the stored references themselves — and the REST layer's in-place
`timestamp_formatted` annotation therefore mutates the records held in the
cache: stored records are not immutable after admission. -/
theorem c8_aliasing (rc : RefCache) :
    (rest_annotate rc).2 = refcache_get_updates rc ∧
    refcache_get_updates rc = rc.refs ∧
    (rest_annotate rc).1.refs = rc.refs ∧
    (∀ r ∈ refcache_get_updates rc, (rc.heap r).timestamp.isSome = true →
        ((rest_annotate rc).1.heap r).timestamp_formatted = (rc.heap r).timestamp) := by
  refine ⟨rfl, rfl, rfl, ?_⟩
  intro r hr hsome
  show (if r ∈ refcache_get_updates rc ∧ (rc.heap r).timestamp.isSome then
      { rc.heap r with timestamp_formatted := (rc.heap r).timestamp }
    else rc.heap r).timestamp_formatted = _
  rw [if_pos ⟨hr, hsome⟩]

/-- C8 witness: the amended theorem at the one-record series. -/
theorem c8_aliasing_witness :
    ((rest_annotate (refcache_append RefCache.empty (mkRec 5))).1.heap 0).timestamp_formatted
      = ((refcache_append RefCache.empty (mkRec 5)).heap 0).timestamp :=
  (c8_aliasing (refcache_append RefCache.empty (mkRec 5))).2.2.2 0 (by decide) (by decide)

/-- When the batch-start throttle window has elapsed, every dict message of the
batch is emitted (the stale `time_since_last_message` is reused for each). -/
theorem foldStep_emit_all (tsl ct pt : Int) (hge : throttle_interval ≤ tsl) :
    ∀ dm : List DictMsg, dm ≠ [] → ∀ (es : List (String × Formatted)) (s : QState),
      (dm.map QMsg.dmsg).foldl (processStep tsl ct pt) (es, s) =
        (es ++ dm.map (fun m => ("bbo_update", formatQueueMsg m pt)),
         { last_message_time := ct, throttled_message := none,
           latest_data := dm.getLast?.map (fun m => formatQueueMsg m pt) }) := by
  intro dm
  induction dm with
  | nil => intro hne; exact absurd rfl hne
  | cons m rest ih =>
    intro _ es s
    have hstep : processStep tsl ct pt (es, s) (QMsg.dmsg m) =
        (es ++ [("bbo_update", formatQueueMsg m pt)],
         { last_message_time := ct, throttled_message := none,
           latest_data := some (formatQueueMsg m pt) }) := by
      simp only [processStep]
      rw [if_pos hge]
    cases rest with
    | nil =>
      simp only [List.map_cons, List.map_nil, List.foldl_cons, List.foldl_nil, hstep]
      rfl
    | cons m2 rest2 =>
      rw [List.map_cons, List.foldl_cons, hstep, ih (List.cons_ne_nil m2 rest2)]
      simp [List.getLast?_cons_cons]

/-- When the batch-start throttle window has not elapsed, every dict message of
the batch is throttled; each overwrites the pending slot, so the slot and the
latest-data snapshot end at the last message, and nothing is emitted. -/
theorem foldStep_throttle_all (tsl ct pt : Int) (hlt : tsl < throttle_interval) :
    ∀ dm : List DictMsg, dm ≠ [] → ∀ (es : List (String × Formatted)) (s : QState),
      (dm.map QMsg.dmsg).foldl (processStep tsl ct pt) (es, s) =
        (es, { last_message_time := s.last_message_time,
               throttled_message := dm.getLast?.map (fun m => formatQueueMsg m pt),
               latest_data := dm.getLast?.map (fun m => formatQueueMsg m pt) }) := by
  intro dm
  induction dm with
  | nil => intro hne; exact absurd rfl hne
  | cons m rest ih =>
    intro _ es s
    have hstep : processStep tsl ct pt (es, s) (QMsg.dmsg m) =
        (es, { last_message_time := s.last_message_time,
               throttled_message := some (formatQueueMsg m pt),
               latest_data := some (formatQueueMsg m pt) }) := by
      simp only [processStep]
      rw [if_neg (by omega)]
    cases rest with
    | nil =>
      simp only [List.map_cons, List.map_nil, List.foldl_cons, List.foldl_nil, hstep]
      rfl
    | cons m2 rest2 =>
      rw [List.map_cons, List.foldl_cons, hstep, ih (List.cons_ne_nil m2 rest2)]
      simp [List.getLast?_cons_cons]

/-- C9 (amended): for a non-empty drained batch of dict messages, the dispatch
iteration behaves as follows.  If the interval had elapsed at batch start,
every message of the batch is sent (the throttle test reuses the elapsed time
computed once per batch) — a burst drained as one batch yields one send per
record, not at most `⌈elapsed/interval⌉ + 1`.  Otherwise no per-message send
happens: each record overwrites the throttled slot, the slot ends holding the
last record, and the trailing flush emits it iff the interval has elapsed by
batch end.  In every case the latest-known-value snapshot is the formatted
last enqueued record, and any emitted sequence ends with it. -/
theorem c9_throttle_batch (st : QState) (dm : List DictMsg) (pt ct ft : Int)
    (hne : dm ≠ []) :
    (throttle_interval ≤ ct - st.last_message_time →
      processBatch st (dm.map QMsg.dmsg) pt ct ft =
        (dm.map (fun m => ("bbo_update", formatQueueMsg m pt)),
         { last_message_time := ct, throttled_message := none,
           latest_data := some (formatQueueMsg (dm.getLast hne) pt) })) ∧
    (ct - st.last_message_time < throttle_interval →
      throttle_interval ≤ ft - st.last_message_time →
      processBatch st (dm.map QMsg.dmsg) pt ct ft =
        ([("bbo_update", formatQueueMsg (dm.getLast hne) pt)],
         { last_message_time := ft, throttled_message := none,
           latest_data := some (formatQueueMsg (dm.getLast hne) pt) })) ∧
    (ct - st.last_message_time < throttle_interval →
      ft - st.last_message_time < throttle_interval →
      processBatch st (dm.map QMsg.dmsg) pt ct ft =
        ([], { last_message_time := st.last_message_time,
               throttled_message := some (formatQueueMsg (dm.getLast hne) pt),
               latest_data := some (formatQueueMsg (dm.getLast hne) pt) })) := by
  have hlastq : dm.getLast? = some (dm.getLast hne) := List.getLast?_eq_getLast dm hne
  refine ⟨?_, ?_, ?_⟩
  · intro hge
    unfold processBatch
    dsimp only
    rw [foldStep_emit_all _ ct pt hge dm hne [] st, hlastq]
    rfl
  · intro hlt hflush
    unfold processBatch
    dsimp only
    rw [foldStep_throttle_all _ ct pt hlt dm hne [] st, hlastq]
    dsimp only [Option.map_some']
    rw [if_pos hflush]
    rfl
  · intro hlt hnoflush
    unfold processBatch
    dsimp only
    rw [foldStep_throttle_all _ ct pt hlt dm hne [] st, hlastq]
    dsimp only [Option.map_some']
    rw [if_neg (by omega)]

/-- C9 counterexample: five records enqueued at the same instant (a burst of
elapsed time 0, far less than one 100 ms interval) and drained as one batch
produce five sends when the interval had elapsed at batch start — the claimed
bound is `⌈elapsed/interval⌉ + 1 ≤ 2` for any sub-interval burst. -/
theorem c9_counterexample :
    (processBatch ⟨0, none, none⟩
        [QMsg.dmsg (mkQMsg 1), QMsg.dmsg (mkQMsg 2), QMsg.dmsg (mkQMsg 3),
         QMsg.dmsg (mkQMsg 4), QMsg.dmsg (mkQMsg 5)] 200 200 200).1.length = 5 := by
  decide

/-- C9 witness: the amended theorem's throttled regime at a concrete
two-message batch whose flush window has elapsed. -/
theorem c9_throttle_batch_witness :
    processBatch ⟨150, none, none⟩ ([mkQMsg 1, mkQMsg 2].map QMsg.dmsg) 200 200 300 =
      ([("bbo_update", formatQueueMsg (List.getLast [mkQMsg 1, mkQMsg 2] (by decide)) 200)],
       { last_message_time := 300, throttled_message := none,
         latest_data :=
           some (formatQueueMsg (List.getLast [mkQMsg 1, mkQMsg 2] (by decide)) 200) }) :=
  (c9_throttle_batch ⟨150, none, none⟩ [mkQMsg 1, mkQMsg 2] 200 200 300 (by decide)).2.1
    (by decide) (by decide)

/-- C10 (amended): `limit = 0` behaves as "no limit" — the Python slice `[-0:]`
is the whole list — in both the unbounded and the bounded branch; but a
NEGATIVE limit `m < 0` does not behave as unlimited: `[-m:]` then drops the
`|m|` oldest records instead. -/
theorem c10_limit_semantics (c : Cache) (sym : String) (st et : Option Int) :
    get_updates c sym st et (some 0) = get_updates c sym st et none ∧
    (∀ m : Int, m < 0 →
      get_updates c sym none none (some m) = (c.updates sym).drop (-m).toNat) := by
  constructor
  · unfold get_updates
    rcases st with _ | s <;> rcases et with _ | e
    · dsimp only
      unfold pyIntSlice
      rw [if_pos (by omega)]
      simp
    all_goals {
      dsimp only
      split
      · unfold pyIntSlice
        rw [if_pos (by omega)]
        simp
      · rfl
    }
  · intro m hm
    unfold get_updates
    dsimp only
    unfold pyIntSlice
    rw [if_pos (by omega)]

/-- C10 counterexample: with three stored records, `limit = -1` returns two
records, not all three — a non-positive limit is not always "unlimited". -/
theorem c10_counterexample :
    (get_updates wCache "S" none none (some (-1))).length = 2 ∧
    (wCache.updates "S").length = 3 ∧
    get_updates wCache "S" none none (some (-1)) ≠ wCache.updates "S" := by
  decide

/-- C10 witness: the amended theorem on the concrete three-tick cache. -/
theorem c10_limit_semantics_witness :
    get_updates wCache "S" none none (some 0) = get_updates wCache "S" none none none ∧
    get_updates wCache "S" none none (some (-2)) =
      (wCache.updates "S").drop (-(-2 : Int)).toNat :=
  ⟨(c10_limit_semantics wCache "S" none none).1,
   (c10_limit_semantics wCache "S" none none).2 (-2) (by decide)⟩
